import Mathlib

/-! The physical page allocator of xv6-riscv (`kernel/kalloc.c`) with per-page reference
counts.

A shallow embedding of `kernel/kalloc.c`.  Physical memory is a byte-addressed map, the free
list is the intrusive list threaded through the first machine word of every free page, and the
reference-count table `prc.table` is a map from table index to an 8-bit counter.  The two spin
locks are not part of the sequential state: every function below is the body of the C function
executed without interleaving.  The calls of `acquire` and `release` are recorded, in program
order, by a second embedding of each function (`kallocT`, `kfreeT`, ...).
-/

namespace Kalloc

/-! ## Constants and macros -/

/-- Modelled from the spec: the macro `PGSIZE` lives in `riscv.h`, which is not among the
sources; the comments of `kalloc.c` ("Allocates whole 4096-byte pages") give its value. -/
def PGSIZE : Nat := 4096

/-- The link-time and build-time addresses `kalloc.c` refers to but does not define:
`KERNBASE` and `PHYSTOP` (macros of `memlayout.h`) and the linker symbol `end`
(here `kend`, the first address after the kernel image). -/
structure Layout where
  KERNBASE : Nat
  PHYSTOP : Nat
  kend : Nat

/-- Modelled from the spec: the macro `PGROUNDUP` lives in `riscv.h`, which is not among the
sources; the spec calls its result the "rounded-up start".  It is
`(sz + PGSIZE - 1) & ~(PGSIZE - 1)` in 64-bit unsigned arithmetic. -/
def PGROUNDUP (sz : Nat) : Nat := ((sz + PGSIZE - 1) % 2 ^ 64) / PGSIZE * PGSIZE

/-- `#define PRCSIZE ((PHYSTOP - KERNBASE) / PGSIZE)` -/
def PRCSIZE (L : Layout) : Nat := (L.PHYSTOP - L.KERNBASE) / PGSIZE

/-- `#define PRCIDX(pa) ((uint16)((pa - KERNBASE) / PGSIZE))`: the subtraction is a `uint64`
subtraction (it wraps modulo `2^64`), the cast keeps the low 16 bits. -/
def PRCIDX (L : Layout) (pa : Nat) : Nat :=
  ((pa + 2 ^ 64 - L.KERNBASE) % 2 ^ 64 / PGSIZE) % 2 ^ 16

/-! ## Memory -/

/-- `memset(dst, c, n)` on byte-addressed memory. -/
def memset (m : Nat → Nat) (dst c n : Nat) : Nat → Nat :=
  fun a => if dst ≤ a ∧ a < dst + n then c % 256 else m a

/-- Load of a 64-bit little-endian word (RISC-V), as done by `r->next`. -/
def readU64 (m : Nat → Nat) (a : Nat) : Nat :=
  m a + m (a + 1) * 2 ^ 8 + m (a + 2) * 2 ^ 16 + m (a + 3) * 2 ^ 24 + m (a + 4) * 2 ^ 32
    + m (a + 5) * 2 ^ 40 + m (a + 6) * 2 ^ 48 + m (a + 7) * 2 ^ 56

/-- Store of a 64-bit little-endian word, as done by `r->next = ...`. -/
def writeU64 (m : Nat → Nat) (a v : Nat) : Nat → Nat :=
  fun x => if a ≤ x ∧ x < a + 8 then (v / 2 ^ (8 * (x - a))) % 256 else m x

/-! ## State -/

/-- The globals of `kalloc.c` together with physical memory: `kmem.freelist`, `prc.table`
(entry `i` of the array is `table i`; only indices below `PRCSIZE` exist in C) and the bytes
of memory. -/
structure KState where
  mem : Nat → Nat
  freelist : Nat
  table : Nat → Nat

/-- The C types of the state: `kmem.freelist` is a 64-bit pointer, the table holds `uint8`
and memory holds bytes. -/
def KState.Typed (s : KState) : Prop :=
  s.freelist < 2 ^ 64 ∧ (∀ i, s.table i < 256) ∧ (∀ a, s.mem a < 256)

/-! ## The functions of `kalloc.c` -/

/-- `void prcinc(uint64 pa)`: `prc.table[PRCIDX(pa)]++` on a `uint8`. -/
def prcinc (L : Layout) (s : KState) (pa : Nat) : KState :=
  { s with table := Function.update s.table (PRCIDX L pa) ((s.table (PRCIDX L pa) + 1) % 256) }

/-- `uint8 prccnt(uint64 pa)`: returns `prc.table[PRCIDX(pa)]`; the state is passed through. -/
def prccnt (L : Layout) (s : KState) (pa : Nat) : Nat × KState :=
  (s.table (PRCIDX L pa), s)

/-- The condition under which `kfree` calls `panic("kfree")`. -/
def kfreePanics (L : Layout) (pa : Nat) : Prop :=
  pa % PGSIZE ≠ 0 ∨ pa < L.kend ∨ pa ≥ L.PHYSTOP

instance (L : Layout) (pa : Nat) : Decidable (kfreePanics L pa) := by
  unfold kfreePanics; infer_instance

/-- `void kfree(void *pa)`.  `panic` never returns: it is the error result. -/
def kfree (L : Layout) (s : KState) (pa : Nat) : Except String KState :=
  if kfreePanics L pa then
    .error "kfree"
  else if s.table (PRCIDX L pa) > 1 then
    -- prc.table[PRCIDX(pa)]--; return;
    .ok { s with table := Function.update s.table (PRCIDX L pa) ((s.table (PRCIDX L pa) - 1) % 256) }
  else
    -- prc.table[PRCIDX(pa)] = 0; memset(pa, 1, PGSIZE); r->next = kmem.freelist; kmem.freelist = r;
    .ok { mem := writeU64 (memset s.mem pa 1 PGSIZE) pa s.freelist
          freelist := pa
          table := Function.update s.table (PRCIDX L pa) 0 }

/-- `void *kalloc(void)`: the returned pointer and the state after the call. -/
def kalloc (L : Layout) (s : KState) : Nat × KState :=
  let r := s.freelist
  if r ≠ 0 then
    -- kmem.freelist = r->next; prc.table[PRCIDX(r)] = 1; memset(r, 5, PGSIZE);
    (r, { mem := memset s.mem r 5 PGSIZE
          freelist := readU64 s.mem r
          table := Function.update s.table (PRCIDX L r) 1 })
  else
    (r, s)

/-- The loop of `freerange`: `for(; p + PGSIZE <= pa_end; p += PGSIZE) kfree(p);`.
The first argument bounds the number of iterations. -/
def freerangeLoop (L : Layout) : Nat → KState → Nat → Nat → Except String KState
  | 0, s, p, pa_end => if p + PGSIZE ≤ pa_end then .error "freerange: out of fuel" else .ok s
  | n + 1, s, p, pa_end =>
    if p + PGSIZE ≤ pa_end then
      match kfree L s p with
      | .ok s1 => freerangeLoop L n s1 (p + PGSIZE) pa_end
      | .error e => .error e
    else .ok s

/-- `void freerange(void *pa_start, void *pa_end)`.  The loop runs at most
`pa_end / PGSIZE` times, which is the fuel given to it. -/
def freerange (L : Layout) (s : KState) (pa_start pa_end : Nat) : Except String KState :=
  freerangeLoop L (pa_end / PGSIZE) s (PGROUNDUP pa_start) pa_end

/-- The loop of `kinit`: `for(uint16 i = 0; i < PRCSIZE; i++) prc.table[i] = 0;`.
The counter is a `uint16`, so `i++` wraps at `2^16`. -/
def prcClearLoop (L : Layout) : Nat → Nat → (Nat → Nat) → Except String (Nat → Nat)
  | 0, i, t => if i < PRCSIZE L then .error "kinit: out of fuel" else .ok t
  | n + 1, i, t =>
    if i < PRCSIZE L then prcClearLoop L n ((i + 1) % 2 ^ 16) (Function.update t i 0)
    else .ok t

/-- `void kinit()`: `freerange(end, (void*)PHYSTOP)`, then the table is cleared.  When
`PRCSIZE` fits the `uint16` counter the clearing loop stops within `2^16` iterations. -/
def kinit (L : Layout) (s : KState) : Except String KState :=
  match freerange L s L.kend L.PHYSTOP with
  | .error e => .error e
  | .ok s1 =>
    match prcClearLoop L (2 ^ 16) 0 s1.table with
    | .error e => .error e
    | .ok t => .ok { s1 with table := t }

/-! ## The free list as a list of pages -/

/-- The chain of `next` pointers that starts at `h` is exactly the list `l`, ending with the
null pointer: this is how `kalloc` walks `kmem.freelist`. -/
def isList (m : Nat → Nat) : Nat → List Nat → Prop
  | h, [] => h = 0
  | h, p :: ps => h = p ∧ p ≠ 0 ∧ isList m (readU64 m p) ps

instance isList.dec (m : Nat → Nat) : (h : Nat) → (l : List Nat) → Decidable (isList m h l)
  | h, [] => by unfold isList; infer_instance
  | h, p :: ps => by
    unfold isList
    have := isList.dec m (readU64 m p) ps
    infer_instance

/-- The free list of state `s` is the list of pages `l`. -/
def FreeList (s : KState) (l : List Nat) : Prop := isList s.mem s.freelist l

instance (s : KState) (l : List Nat) : Decidable (FreeList s l) := by
  unfold FreeList; infer_instance

/-! ## Repeated calls -/

/-- `n` successive calls `prcinc(p)`. -/
def prcincN (L : Layout) : Nat → KState → Nat → KState
  | 0, s, _ => s
  | n + 1, s, p => prcincN L n (prcinc L s p) p

/-- `n` successive calls `kfree(p)`; a panic stops the sequence. -/
def kfreeN (L : Layout) : Nat → KState → Nat → Except String KState
  | 0, s, _ => .ok s
  | n + 1, s, p =>
    match kfree L s p with
    | .ok s1 => kfreeN L n s1 p
    | .error e => .error e

/-! ## Concrete layout and states -/

/-- The layout of the stock kernel: 128 MB of RAM at `0x80000000`; the value of `end` is an
example of a kernel image of 0x21f40 bytes. -/
def xv6 : Layout := { KERNBASE := 0x80000000, PHYSTOP := 0x88000000, kend := 0x80021f40 }

/-- Zeroed memory, zeroed table and the one-page free list `[0x87ffe000]`. -/
def oneFree : KState := { mem := fun _ => 0, freelist := 0x87ffe000, table := fun _ => 0 }

/-- Zeroed memory and free list, and the table entry of page `0x87fff000` holding 3. -/
def shared3 : KState :=
  { mem := fun _ => 0, freelist := 0, table := fun i => if i = 0x7fff then 3 else 0 }

/-! ## Initialisation -/

/-- What is assumed of the addresses the file does not define: the kernel image starts at
`KERNBASE` and is not empty, `end` is not beyond `PHYSTOP`, addresses up to one page past
`PHYSTOP` fit in 64 bits, and `[KERNBASE, PHYSTOP)` consists of the 32768 pages the comment
on `PRCSIZE` speaks of. -/
def Layout.WF (L : Layout) : Prop :=
  L.KERNBASE < L.kend ∧ L.kend ≤ L.PHYSTOP ∧ L.PHYSTOP + PGSIZE ≤ 2 ^ 64 ∧
    L.PHYSTOP = L.KERNBASE + 32768 * PGSIZE

instance (L : Layout) : Decidable L.WF := by
  unfold Layout.WF; infer_instance

/-- The `k` pages `start, start + PGSIZE, ...`, highest address first. -/
def pagesDesc (start : Nat) : Nat → List Nat
  | 0 => []
  | k + 1 => (start + k * PGSIZE) :: pagesDesc start k

/-- The number of whole pages between `PGROUNDUP(end)` and `PHYSTOP`. -/
def npages (L : Layout) : Nat := (L.PHYSTOP - PGROUNDUP L.kend) / PGSIZE

/-- `n` successive calls of `kalloc`, recording for each call the returned pointer and the
value `prccnt` gives for it right after the return. -/
def kallocN (L : Layout) : Nat → KState → List (Nat × Nat) × KState
  | 0, s => ([], s)
  | n + 1, s =>
    let r := kalloc L s
    let c := prccnt L r.2 r.1
    let rest := kallocN L n c.2
    ((r.1, c.1) :: rest.1, rest.2)

/-- A call made by a client of the allocator. -/
inductive Op where
  | alloc : Op
  | free : Nat → Op

/-- Runs a sequence of `kalloc` and `kfree` calls; a panic stops it. -/
def runOps (L : Layout) : KState → List Op → Except String KState
  | s, [] => .ok s
  | s, Op.alloc :: ops => runOps L (kalloc L s).2 ops
  | s, Op.free pa :: ops =>
    match kfree L s pa with
    | .ok s1 => runOps L s1 ops
    | .error e => .error e

/-- Every `kfree` of the sequence is applied to a page that is allocated at that moment: its
address passes the validation of `kfree` and its reference count is at least 1. -/
def Allowed (L : Layout) : KState → List Op → Prop
  | _, [] => True
  | s, Op.alloc :: ops => Allowed L (kalloc L s).2 ops
  | s, Op.free pa :: ops =>
    ¬ kfreePanics L pa ∧ 1 ≤ (prccnt L s pa).1 ∧
      match kfree L s pa with
      | .ok s1 => Allowed L s1 ops
      | .error _ => False

/-- The zero-initialised globals of C: a null `kmem.freelist` and a table of zeros. -/
def zeroState : KState := { mem := fun _ => 0, freelist := 0, table := fun _ => 0 }

/-- Conservation invariant relative to the list `l0` of managed pages: the free list is a
list `l` of pages of `l0` with count 0, every page of `l0` that is off the list has count 1,
and every table entry that is not 0 belongs to a page of `l0`. -/
def Conserved (L : Layout) (l0 : List Nat) (s : KState) : Prop :=
  ∃ l, FreeList s l ∧ (∀ q ∈ l, q ∈ l0 ∧ s.table (PRCIDX L q) = 0) ∧
    (∀ q ∈ l0, q ∉ l → s.table (PRCIDX L q) = 1) ∧
    (∀ i, i < PRCSIZE L → s.table i ≠ 0 → ∃ q ∈ l0, PRCIDX L q = i)

/-! ## Pages and counters -/

/-- What is assumed of `KERNBASE` and `PHYSTOP` where pages are compared with table indices:
`KERNBASE` is page-aligned and `[KERNBASE, PHYSTOP)` is exactly the 32768 pages the comment on
`PRCSIZE` speaks of. -/
def Layout.Paged (L : Layout) : Prop :=
  L.KERNBASE % PGSIZE = 0 ∧ L.PHYSTOP = L.KERNBASE + 32768 * PGSIZE

instance (L : Layout) : Decidable L.Paged := by
  unfold Layout.Paged; infer_instance

/-! ## Reachable states -/

/-- A call made by a client of the allocator, `prcinc` included. -/
inductive Call where
  | alloc : Call
  | free : Nat → Call
  | inc : Nat → Call

/-- Runs a sequence of `kalloc`, `kfree` and `prcinc` calls; a panic stops it. -/
def runCalls (L : Layout) : KState → List Call → Except String KState
  | s, [] => .ok s
  | s, Call.alloc :: cs => runCalls L (kalloc L s).2 cs
  | s, Call.free pa :: cs =>
    match kfree L s pa with
    | .ok s1 => runCalls L s1 cs
    | .error e => .error e
  | s, Call.inc pa :: cs => runCalls L (prcinc L s pa) cs

/-- Every `kfree(p)` of the sequence has `p` pass the validation with a count of at least 1,
and every `prcinc(p)` finds a count between 1 and 254. -/
def Permitted (L : Layout) : KState → List Call → Prop
  | _, [] => True
  | s, Call.alloc :: cs => Permitted L (kalloc L s).2 cs
  | s, Call.free pa :: cs =>
    ¬ kfreePanics L pa ∧ 1 ≤ (prccnt L s pa).1 ∧
      match kfree L s pa with
      | .ok s1 => Permitted L s1 cs
      | .error _ => False
  | s, Call.inc pa :: cs =>
    1 ≤ (prccnt L s pa).1 ∧ (prccnt L s pa).1 ≤ 254 ∧ Permitted L (prcinc L s pa) cs

/-- The free-list invariant: the free list is a list without duplicates of page-aligned
pages of `[end, PHYSTOP)` whose reference count is 0. -/
def FreeListInv (L : Layout) (s : KState) : Prop :=
  ∃ l, FreeList s l ∧ l.Nodup ∧
    ∀ q ∈ l, q % PGSIZE = 0 ∧ L.kend ≤ q ∧ q < L.PHYSTOP ∧ (prccnt L s q).1 = 0

/-! ## Lock events -/

/-- The two spin locks of `kalloc.c`: `kmem.lock` and `prc.lock`. -/
inductive Lock where
  | kmem : Lock
  | prc : Lock
  deriving DecidableEq

/-- A call `acquire(&lk)` or `release(&lk)`. -/
inductive LockEv where
  | acquire : Lock → LockEv
  | release : Lock → LockEv
  deriving DecidableEq

/-- `prcinc` with its `acquire` and `release` calls recorded in program order. -/
def prcincT (L : Layout) (s : KState) (pa : Nat) : KState × List LockEv :=
  -- acquire(&prc.lock); prc.table[PRCIDX(pa)]++; release(&prc.lock);
  ({ s with table := Function.update s.table (PRCIDX L pa) ((s.table (PRCIDX L pa) + 1) % 256) },
    [.acquire .prc, .release .prc])

/-- `prccnt` with its `acquire` and `release` calls recorded in program order. -/
def prccntT (L : Layout) (s : KState) (pa : Nat) : (Nat × KState) × List LockEv :=
  -- acquire(&prc.lock); cnt = prc.table[PRCIDX(pa)]; release(&prc.lock);
  ((s.table (PRCIDX L pa), s), [.acquire .prc, .release .prc])

/-- `kfree` with its `acquire` and `release` calls recorded in program order.  The panic
comes before the first `acquire`. -/
def kfreeT (L : Layout) (s : KState) (pa : Nat) : Except String KState × List LockEv :=
  if kfreePanics L pa then
    (.error "kfree", [])
  else if s.table (PRCIDX L pa) > 1 then
    -- acquire(&prc.lock); prc.table[PRCIDX(pa)]--; release(&prc.lock); return;
    (.ok { s with
        table := Function.update s.table (PRCIDX L pa) ((s.table (PRCIDX L pa) - 1) % 256) },
      [.acquire .prc, .release .prc])
  else
    -- acquire(&prc.lock); prc.table[PRCIDX(pa)] = 0; release(&prc.lock); memset(pa, 1, PGSIZE);
    -- acquire(&kmem.lock); r->next = kmem.freelist; kmem.freelist = r; release(&kmem.lock);
    (.ok { mem := writeU64 (memset s.mem pa 1 PGSIZE) pa s.freelist
           freelist := pa
           table := Function.update s.table (PRCIDX L pa) 0 },
      [.acquire .prc, .release .prc, .acquire .kmem, .release .kmem])

/-- `kalloc` with its `acquire` and `release` calls recorded in program order. -/
def kallocT (L : Layout) (s : KState) : (Nat × KState) × List LockEv :=
  let r := s.freelist
  if r ≠ 0 then
    -- acquire(&kmem.lock); kmem.freelist = r->next; release(&kmem.lock);
    -- acquire(&prc.lock); prc.table[PRCIDX(r)] = 1; release(&prc.lock); memset(r, 5, PGSIZE);
    ((r, { mem := memset s.mem r 5 PGSIZE
           freelist := readU64 s.mem r
           table := Function.update s.table (PRCIDX L r) 1 }),
      [.acquire .kmem, .release .kmem, .acquire .prc, .release .prc])
  else
    -- acquire(&kmem.lock); release(&kmem.lock);
    ((r, s), [.acquire .kmem, .release .kmem])

/-- The loop of `freerange` with the lock events of its calls of `kfree`. -/
def freerangeLoopT (L : Layout) : Nat → KState → Nat → Nat → Except String KState × List LockEv
  | 0, s, p, pa_end =>
    if p + PGSIZE ≤ pa_end then (.error "freerange: out of fuel", []) else (.ok s, [])
  | n + 1, s, p, pa_end =>
    if p + PGSIZE ≤ pa_end then
      match kfreeT L s p with
      | (.ok s1, es) =>
        ((freerangeLoopT L n s1 (p + PGSIZE) pa_end).1,
          es ++ (freerangeLoopT L n s1 (p + PGSIZE) pa_end).2)
      | (.error e, es) => (.error e, es)
    else (.ok s, [])

/-- `freerange` with the lock events of its calls of `kfree`. -/
def freerangeT (L : Layout) (s : KState) (pa_start pa_end : Nat) :
    Except String KState × List LockEv :=
  freerangeLoopT L (pa_end / PGSIZE) s (PGROUNDUP pa_start) pa_end

/-- `kinit` with its lock events: those of `freerange`, then `acquire(&prc.lock)`, the
clearing loop and `release(&prc.lock)`.  The two calls of `initlock` acquire nothing. -/
def kinitT (L : Layout) (s : KState) : Except String KState × List LockEv :=
  match freerangeT L s L.kend L.PHYSTOP with
  | (.error e, es) => (.error e, es)
  | (.ok s1, es) =>
    match prcClearLoop L (2 ^ 16) 0 s1.table with
    | .error e => (.error e, es ++ [.acquire .prc])
    | .ok t => (.ok { s1 with table := t }, es ++ [.acquire .prc, .release .prc])

/-- Follows a sequence of lock events from the lock held at its start (if any): the result
is the lock held at the end, and there is none when an `acquire` happens while a lock is
held or a `release` names a lock that is not the one held. -/
def lockRun : Option Lock → List LockEv → Option (Option Lock)
  | h, [] => some h
  | none, .acquire l :: es => lockRun (some l) es
  | some _, .acquire _ :: _ => none
  | some h, .release l :: es => if h = l then lockRun none es else none
  | none, .release _ :: _ => none

/-- Every `acquire` is followed by the `release` of the same lock before any other
`acquire`, so that no two locks are ever held together and none is held at the end. -/
def Disciplined (es : List LockEv) : Prop := lockRun none es = some none

instance (es : List LockEv) : Decidable (Disciplined es) := by
  unfold Disciplined; infer_instance

/-! ## The initializer as the spec describes it -/

/-- The `k` pages `start, start + PGSIZE, ...` in ascending order. -/
def pagesAsc (start : Nat) : Nat → List Nat
  | 0 => []
  | k + 1 => start :: pagesAsc (start + PGSIZE) k

/-- Calls `kfree` on every address of a list, in order; a panic stops the sequence. -/
def kfreeAll (L : Layout) : KState → List Nat → Except String KState
  | s, [] => .ok s
  | s, p :: ps =>
    match kfree L s p with
    | .ok s1 => kfreeAll L s1 ps
    | .error e => .error e

/-- Sets every entry of the reference-count table (indices below `PRCSIZE`) to 0. -/
def clearTable (L : Layout) (s : KState) : KState :=
  { s with table := fun i => if i < PRCSIZE L then 0 else s.table i }

/-- The initializer in the words of the spec, not of `kinit`: it "zeroes every entry of the
reference-count table.  Then, for every page-aligned address" between the rounded-up start
and the ceiling it "invokes the free operation", in ascending order. -/
def kinitSpec (L : Layout) (s : KState) : Except String KState :=
  kfreeAll L (clearTable L s) (pagesAsc (PGROUNDUP L.kend) (npages L))

/-- The state `kfree` leaves when it pushes the page `p`: the branch for a count of at most
one. -/
def pushState (L : Layout) (s : KState) (p : Nat) : KState :=
  { mem := writeU64 (memset s.mem p 1 PGSIZE) p s.freelist
    freelist := p
    table := Function.update s.table (PRCIDX L p) 0 }

/-- Zeroed memory, a null free list and a table whose entry for the first page after the
kernel of `xv6` (`0x80022000`, index `0x22`) holds 3. -/
def junk3 : KState :=
  { mem := fun _ => 0, freelist := 0, table := fun i => if i = 0x22 then 3 else 0 }

/-! ## Memory lemmas -/

theorem readU64_congr {m1 m2 : Nat → Nat} {q : Nat}
    (h : ∀ x, q ≤ x → x < q + 8 → m1 x = m2 x) : readU64 m1 q = readU64 m2 q := by
  unfold readU64
  rw [h q (by omega) (by omega), h (q + 1) (by omega) (by omega), h (q + 2) (by omega) (by omega),
    h (q + 3) (by omega) (by omega), h (q + 4) (by omega) (by omega),
    h (q + 5) (by omega) (by omega), h (q + 6) (by omega) (by omega),
    h (q + 7) (by omega) (by omega)]

theorem readU64_writeU64_same (m : Nat → Nat) (a v : Nat) (hv : v < 2 ^ 64) :
    readU64 (writeU64 m a v) a = v := by
  have e1 : a + 1 - a = 1 := by omega
  have e2 : a + 2 - a = 2 := by omega
  have e3 : a + 3 - a = 3 := by omega
  have e4 : a + 4 - a = 4 := by omega
  have e5 : a + 5 - a = 5 := by omega
  have e6 : a + 6 - a = 6 := by omega
  have e7 : a + 7 - a = 7 := by omega
  simp only [readU64, writeU64, le_refl, Nat.le_add_right, true_and, Nat.lt_add_of_pos_right,
    Nat.add_lt_add_iff_left, Nat.sub_self, e1, e2, e3, e4, e5, e6, e7]
  norm_num
  omega

theorem isList_congr {m1 m2 : Nat → Nat} : ∀ {h : Nat} {l : List Nat}, isList m1 h l →
    (∀ q ∈ l, ∀ x, q ≤ x → x < q + 8 → m2 x = m1 x) → isList m2 h l
  | _, [], hl, _ => hl
  | _, p :: ps, hl, hm => by
    obtain ⟨h1, h2, h3⟩ := hl
    refine ⟨h1, h2, ?_⟩
    rw [readU64_congr (hm p (List.mem_cons_self _ _))]
    exact isList_congr h3 (fun q hq => hm q (List.mem_cons_of_mem _ hq))

theorem isList_unique {m : Nat → Nat} : ∀ {h : Nat} {l1 l2 : List Nat},
    isList m h l1 → isList m h l2 → l1 = l2
  | _, [], [], _, _ => rfl
  | _, [], q :: _, h1, h2 => absurd (h2.1.symm.trans h1) h2.2.1
  | _, p :: _, [], h1, h2 => absurd (h1.1.symm.trans h2) h1.2.1
  | _, p :: ps, q :: qs, h1, h2 => by
    have e : p = q := h1.1.symm.trans h2.1
    subst e
    rw [isList_unique h1.2.2 h2.2.2]

theorem isList_head {m : Nat → Nat} {h p : Nat} {l : List Nat} (hl : isList m h (p :: l)) :
    h = p := hl.1

theorem isList_suffix {m : Nat → Nat} : ∀ {h : Nat} (l1 : List Nat) {p : Nat} {l2 : List Nat},
    isList m h (l1 ++ p :: l2) → isList m p (p :: l2)
  | _, [], _, _, hl => ⟨rfl, hl.2.1, hl.2.2⟩
  | _, _ :: l1, _, _, hl => isList_suffix l1 hl.2.2

theorem isList_nodup {m : Nat → Nat} : ∀ {h : Nat} {l : List Nat}, isList m h l → l.Nodup
  | _, [], _ => List.nodup_nil
  | _, p :: ps, hl => by
    refine List.nodup_cons.mpr ⟨?_, isList_nodup hl.2.2⟩
    intro hp
    obtain ⟨a, b, hab⟩ := List.append_of_mem hp
    have h1 : isList m p (p :: b) := by
      have := hl.2.2
      rw [hab] at this
      exact isList_suffix a this
    have h2 : isList m p (p :: ps) := ⟨rfl, hl.2.1, hl.2.2⟩
    have h3 := isList_unique h1 h2
    have h4 : b.length = ps.length := by
      have := congrArg List.length h3
      simpa using this
    have h5 := congrArg List.length hab
    simp at h5
    omega

theorem isList_lt {m : Nat → Nat} {h : Nat} {l : List Nat} {B : Nat} (hB : 0 < B)
    (hl : isList m h l) (hb : ∀ q ∈ l, q < B) : h < B := by
  cases l with
  | nil => rw [show h = 0 from hl]; exact hB
  | cons p ps => rw [hl.1]; exact hb p (List.mem_cons_self _ _)

end Kalloc
namespace Kalloc

/-! ## Pages do not overlap -/

theorem link_outside_page {p q x : Nat} (hp : p % PGSIZE = 0) (hq : q % PGSIZE = 0)
    (hne : q ≠ p) (h1 : q ≤ x) (h2 : x < q + 8) : ¬ (p ≤ x ∧ x < p + PGSIZE) := by
  unfold PGSIZE at *
  omega

theorem isList_memset {m : Nat → Nat} {h : Nat} {l : List Nat} (p c : Nat)
    (hl : isList m h l) (ha : ∀ q ∈ l, q % PGSIZE = 0) (hp : p % PGSIZE = 0) (hn : p ∉ l) :
    isList (memset m p c PGSIZE) h l := by
  refine isList_congr hl (fun q hq x h1 h2 => ?_)
  have hne : q ≠ p := fun e => hn (e ▸ hq)
  simp only [memset, if_neg (link_outside_page hp (ha q hq) hne h1 h2)]

theorem isList_writeU64 {m : Nat → Nat} {h : Nat} {l : List Nat} (p v : Nat)
    (hl : isList m h l) (ha : ∀ q ∈ l, q % PGSIZE = 0) (hp : p % PGSIZE = 0) (hn : p ∉ l) :
    isList (writeU64 m p v) h l := by
  refine isList_congr hl (fun q hq x h1 h2 => ?_)
  have hne : q ≠ p := fun e => hn (e ▸ hq)
  have := link_outside_page hp (ha q hq) hne h1 h2
  have h3 : ¬ (p ≤ x ∧ x < p + 8) := by
    unfold PGSIZE at this
    omega
  simp only [writeU64, if_neg h3]

/-! ## The two branches of `kfree` and the two branches of `kalloc` -/

theorem kfree_shared (L : Layout) (s : KState) (pa : Nat) (hv : ¬ kfreePanics L pa)
    (hc : 1 < s.table (PRCIDX L pa)) :
    kfree L s pa = .ok { s with
      table := Function.update s.table (PRCIDX L pa) ((s.table (PRCIDX L pa) - 1) % 256) } := by
  unfold kfree
  rw [if_neg hv, if_pos hc]

theorem kfree_last (L : Layout) (s : KState) (pa : Nat) (hv : ¬ kfreePanics L pa)
    (hc : s.table (PRCIDX L pa) ≤ 1) :
    kfree L s pa = .ok { mem := writeU64 (memset s.mem pa 1 PGSIZE) pa s.freelist,
                         freelist := pa,
                         table := Function.update s.table (PRCIDX L pa) 0 } := by
  unfold kfree
  rw [if_neg hv, if_neg (by omega)]

theorem kalloc_nonempty (L : Layout) (s : KState) (h : s.freelist ≠ 0) :
    kalloc L s = (s.freelist, { mem := memset s.mem s.freelist 5 PGSIZE,
                                freelist := readU64 s.mem s.freelist,
                                table := Function.update s.table (PRCIDX L s.freelist) 1 }) := by
  simp only [kalloc, if_pos h]

theorem kalloc_empty (L : Layout) (s : KState) (h : s.freelist = 0) : kalloc L s = (0, s) := by
  simp only [kalloc, h, ne_eq, not_true_eq_false, if_false]

/-- Popping: on a free list `p :: l` of page-aligned addresses `kalloc` returns `p` and leaves
the list `l`. -/
theorem kalloc_cons (L : Layout) (s : KState) (p : Nat) (l : List Nat)
    (hl : FreeList s (p :: l)) (ha : ∀ q ∈ p :: l, q % PGSIZE = 0) :
    (kalloc L s).1 = p ∧ FreeList (kalloc L s).2 l ∧
      (kalloc L s).2.table = Function.update s.table (PRCIDX L p) 1 := by
  have hh : s.freelist = p := hl.1
  have h0 : s.freelist ≠ 0 := hh ▸ hl.2.1
  rw [kalloc_nonempty L s h0]
  refine ⟨hh, ?_, by rw [hh]⟩
  have hnd : (p :: l).Nodup := isList_nodup hl
  have hn : p ∉ l := (List.nodup_cons.mp hnd).1
  show isList (memset s.mem s.freelist 5 PGSIZE) (readU64 s.mem s.freelist) l
  rw [hh]
  exact isList_memset p 5 hl.2.2 (fun q hq => ha q (List.mem_cons_of_mem _ hq))
    (ha p (List.mem_cons_self _ _)) hn

/-- Pushing: `kfree` of a page that passes validation, has count at most one and is not on the
free list `l` makes the free list `p :: l`. -/
theorem kfree_cons (L : Layout) (s : KState) (p : Nat) (l : List Nat)
    (hv : ¬ kfreePanics L p) (hc : s.table (PRCIDX L p) ≤ 1) (hp0 : p ≠ 0)
    (hf : s.freelist < 2 ^ 64) (hl : FreeList s l) (ha : ∀ q ∈ l, q % PGSIZE = 0)
    (hn : p ∉ l) :
    ∃ s1, kfree L s p = .ok s1 ∧ FreeList s1 (p :: l) ∧
      s1.table = Function.update s.table (PRCIDX L p) 0 := by
  refine ⟨_, kfree_last L s p hv hc, ?_, rfl⟩
  have hp : p % PGSIZE = 0 := by
    by_contra h
    exact hv (Or.inl h)
  refine ⟨rfl, hp0, ?_⟩
  show isList _ (readU64 (writeU64 (memset s.mem p 1 PGSIZE) p s.freelist) p) l
  rw [readU64_writeU64_same _ _ _ hf]
  exact isList_writeU64 p _ (isList_memset p 1 hl ha hp hn) ha hp hn

theorem isList_self_loop {m : Nat → Nat} {p : Nat} (h0 : p ≠ 0) (hs : readU64 m p = p) :
    ∀ l, ¬ isList m p l
  | [] => fun h => h0 h
  | q :: l => fun h => by
    have e : p = q := h.1
    subst e
    have := h.2.2
    rw [hs] at this
    exact isList_self_loop h0 hs l this

/-! ## Single calls -/

/-- C1: when the free list is the non-empty list `p :: l` of page-aligned pages, `kalloc`
returns its head `p`, the free list afterwards is `l` (the old list without that head), and
`prccnt` of the returned page is exactly 1. -/
theorem kalloc_returns_head (L : Layout) (s : KState) (p : Nat) (l : List Nat)
    (hl : FreeList s (p :: l)) (ha : ∀ q ∈ p :: l, q % PGSIZE = 0) :
    (kalloc L s).1 = p ∧ FreeList (kalloc L s).2 l ∧ (prccnt L (kalloc L s).2 p).1 = 1 := by
  obtain ⟨h1, h2, h3⟩ := kalloc_cons L s p l hl ha
  refine ⟨h1, h2, ?_⟩
  simp only [prccnt, h3, Function.update_same]

theorem kalloc_returns_head_witness :
    (kalloc xv6 oneFree).1 = 0x87ffe000 ∧ FreeList (kalloc xv6 oneFree).2 [] ∧
      (prccnt xv6 (kalloc xv6 oneFree).2 0x87ffe000).1 = 1 :=
  kalloc_returns_head xv6 oneFree 0x87ffe000 [] (by decide) (by decide)

/-- C2: for an address `pa` that passes the validation of `kfree`, with `c` the count of its
page before the call: the count afterwards is `c - 1` when `c > 1` and `0` when `c ≤ 1`
(clamped, never 255); the page becomes the new head of the free list, linked to the old head,
when `c ≤ 1`, which is exactly when the resulting count is 0; otherwise the free list and
memory are untouched. -/
theorem kfree_count_and_push (L : Layout) (s : KState) (pa : Nat) (ht : s.Typed)
    (hv : ¬ kfreePanics L pa) :
    ∃ s1, kfree L s pa = .ok s1 ∧
      (1 < (prccnt L s pa).1 →
        (prccnt L s1 pa).1 = (prccnt L s pa).1 - 1 ∧ s1.freelist = s.freelist ∧ s1.mem = s.mem) ∧
      ((prccnt L s pa).1 ≤ 1 →
        (prccnt L s1 pa).1 = 0 ∧ s1.freelist = pa ∧ readU64 s1.mem pa = s.freelist) ∧
      ((prccnt L s1 pa).1 = 0 ↔ (prccnt L s pa).1 ≤ 1) := by
  obtain ⟨hf, htab, _⟩ := ht
  have hb := htab (PRCIDX L pa)
  by_cases hc : 1 < s.table (PRCIDX L pa)
  · refine ⟨_, kfree_shared L s pa hv hc, ?_, ?_, ?_⟩
    · intro _
      simp only [prccnt, Function.update_same]
      exact ⟨by omega, trivial, trivial⟩
    · intro h
      simp only [prccnt] at h
      omega
    · simp only [prccnt, Function.update_same]
      omega
  · have hc1 : s.table (PRCIDX L pa) ≤ 1 := by omega
    refine ⟨_, kfree_last L s pa hv hc1, ?_, ?_, ?_⟩
    · intro h
      simp only [prccnt] at h
      omega
    · intro _
      simp only [prccnt, Function.update_same]
      exact ⟨trivial, trivial, readU64_writeU64_same _ _ _ hf⟩
    · simp only [prccnt, Function.update_same]
      exact ⟨fun _ => hc1, fun _ => trivial⟩

theorem kfree_count_and_push_witness :
    ∃ s1, kfree xv6 shared3 0x87fff000 = .ok s1 ∧
      (1 < (prccnt xv6 shared3 0x87fff000).1 →
        (prccnt xv6 s1 0x87fff000).1 = (prccnt xv6 shared3 0x87fff000).1 - 1 ∧
          s1.freelist = shared3.freelist ∧ s1.mem = shared3.mem) ∧
      ((prccnt xv6 shared3 0x87fff000).1 ≤ 1 →
        (prccnt xv6 s1 0x87fff000).1 = 0 ∧ s1.freelist = 0x87fff000 ∧
          readU64 s1.mem 0x87fff000 = shared3.freelist) ∧
      ((prccnt xv6 s1 0x87fff000).1 = 0 ↔ (prccnt xv6 shared3 0x87fff000).1 ≤ 1) :=
  kfree_count_and_push xv6 shared3 0x87fff000
    ⟨by decide, fun i => by unfold shared3; dsimp only; split <;> decide,
      fun _ => show (0 : Nat) < 256 by decide⟩
    (by decide)

/-- C3: provided rounding `end` up to a page does not leave the 64-bit address space, `kfree`
takes the fatal path `panic("kfree")` if and only if `pa` is not a multiple of `PGSIZE`, or is
below `PGROUNDUP(end)`, or is not below `PHYSTOP`; on every other address it returns. -/
theorem kfree_panics_iff (L : Layout) (s : KState) (pa : Nat) (hL : L.kend + PGSIZE ≤ 2 ^ 64) :
    (kfree L s pa = .error "kfree" ↔
        (pa % PGSIZE ≠ 0 ∨ pa < PGROUNDUP L.kend ∨ L.PHYSTOP ≤ pa)) ∧
      (¬ (pa % PGSIZE ≠ 0 ∨ pa < PGROUNDUP L.kend ∨ L.PHYSTOP ≤ pa) →
        ∃ s1, kfree L s pa = .ok s1) := by
  have key : kfreePanics L pa ↔ (pa % PGSIZE ≠ 0 ∨ pa < PGROUNDUP L.kend ∨ L.PHYSTOP ≤ pa) := by
    unfold kfreePanics PGROUNDUP PGSIZE at *
    omega
  constructor
  · rw [← key]
    constructor
    · intro h
      by_contra hv
      unfold kfree at h
      rw [if_neg hv] at h
      split at h <;> cases h
    · intro hv
      unfold kfree
      rw [if_pos hv]
  · intro h
    rw [← key] at h
    by_cases hc : 1 < s.table (PRCIDX L pa)
    · exact ⟨_, kfree_shared L s pa h hc⟩
    · exact ⟨_, kfree_last L s pa h (by omega)⟩

theorem kfree_panics_iff_witness :
    (kfree xv6 oneFree 0x80021f40 = .error "kfree" ↔
        (0x80021f40 % PGSIZE ≠ 0 ∨ 0x80021f40 < PGROUNDUP xv6.kend ∨ xv6.PHYSTOP ≤ 0x80021f40)) ∧
      (¬ (0x80021f40 % PGSIZE ≠ 0 ∨ 0x80021f40 < PGROUNDUP xv6.kend ∨
          xv6.PHYSTOP ≤ 0x80021f40) →
        ∃ s1, kfree xv6 oneFree 0x80021f40 = .ok s1) :=
  kfree_panics_iff xv6 oneFree 0x80021f40 (by decide)

/-- C4: when the free list is empty (`kmem.freelist` is null) `kalloc` returns 0 and the whole
state (free list, table, memory) is unchanged; and `kalloc` returns 0 only when
the free list is empty. -/
theorem kalloc_empty_iff (L : Layout) (s : KState) :
    (s.freelist = 0 → kalloc L s = (0, s)) ∧ ((kalloc L s).1 = 0 ↔ s.freelist = 0) := by
  refine ⟨kalloc_empty L s, ?_, fun h => by rw [kalloc_empty L s h]⟩
  intro h
  by_contra h0
  rw [kalloc_nonempty L s h0] at h
  exact h0 h

theorem kalloc_empty_iff_witness :
    (shared3.freelist = 0 → kalloc xv6 shared3 = (0, shared3)) ∧
      ((kalloc xv6 shared3).1 = 0 ↔ shared3.freelist = 0) :=
  kalloc_empty_iff xv6 shared3

/-! ## Sharing, double free and stack order -/

theorem prcincN_spec (L : Layout) (p : Nat) : ∀ (K : Nat) (s : KState),
    s.table (PRCIDX L p) + K ≤ 255 →
      (prcincN L K s p).table (PRCIDX L p) = s.table (PRCIDX L p) + K ∧
        (prcincN L K s p).mem = s.mem ∧ (prcincN L K s p).freelist = s.freelist
  | 0, _, _ => ⟨rfl, rfl, rfl⟩
  | K + 1, s, h => by
    have hs : (prcinc L s p).table (PRCIDX L p) = s.table (PRCIDX L p) + 1 := by
      simp only [prcinc, Function.update_same]
      omega
    obtain ⟨h1, h2, h3⟩ := prcincN_spec L p K (prcinc L s p) (by omega)
    refine ⟨?_, ?_, ?_⟩
    · show (prcincN L K (prcinc L s p) p).table (PRCIDX L p) = _
      omega
    · exact h2
    · exact h3

theorem kfreeN_snoc (L : Layout) (p : Nat) : ∀ (j : Nat) (s s1 : KState),
    kfreeN L j s p = .ok s1 → kfreeN L (j + 1) s p = kfree L s1 p
  | 0, s, s1, h => by
    simp only [kfreeN] at h
    cases h
    simp only [kfreeN]
    cases kfree L s p <;> rfl
  | j + 1, s, s1, h => by
    rw [kfreeN] at h
    rw [kfreeN]
    cases hk : kfree L s p with
    | error e => rw [hk] at h; cases h
    | ok s3 =>
      rw [hk] at h
      exact kfreeN_snoc L p j s3 s1 h

/-- While the count stays above one, `j` calls of `kfree(p)` lower it by `j` and touch nothing
else. -/
theorem kfreeN_shared (L : Layout) (p : Nat) (hv : ¬ kfreePanics L p) : ∀ (j : Nat) (s : KState),
    j < s.table (PRCIDX L p) → s.table (PRCIDX L p) ≤ 255 →
      ∃ s1, kfreeN L j s p = .ok s1 ∧ s1.table (PRCIDX L p) = s.table (PRCIDX L p) - j ∧
        s1.mem = s.mem ∧ s1.freelist = s.freelist
  | 0, s, _, _ => ⟨s, rfl, rfl, rfl, rfl⟩
  | j + 1, s, h1, h2 => by
    have e := kfree_shared L s p hv (by omega)
    have hu : (Function.update s.table (PRCIDX L p) ((s.table (PRCIDX L p) - 1) % 256))
        (PRCIDX L p) = s.table (PRCIDX L p) - 1 := by
      simp only [Function.update_same]
      omega
    obtain ⟨s1, g1, g2, g3, g4⟩ := kfreeN_shared L p hv j
      { s with table :=
          Function.update s.table (PRCIDX L p) ((s.table (PRCIDX L p) - 1) % 256) }
      (by dsimp only; omega) (by dsimp only; omega)
    refine ⟨s1, ?_, ?_, g3, g4⟩
    · simp only [kfreeN, e]
      exact g1
    · rw [g2]
      dsimp only
      omega

/-- A page with count `j + 1` that is off the free list `l` is back on it after exactly
`j + 1` calls of `kfree`. -/
theorem kfreeN_last (L : Layout) (p : Nat) (l : List Nat) (hv : ¬ kfreePanics L p)
    (hp0 : p ≠ 0) (ha : ∀ q ∈ l, q % PGSIZE = 0) (hn : p ∉ l) (j : Nat) (s : KState)
    (hc : s.table (PRCIDX L p) = j + 1) (hj : j + 1 ≤ 255) (hf : s.freelist < 2 ^ 64)
    (hl : FreeList s l) :
    ∃ s1, kfreeN L (j + 1) s p = .ok s1 ∧ FreeList s1 (p :: l) ∧
      s1.table (PRCIDX L p) = 0 := by
  obtain ⟨s1, g1, g2, g3, g4⟩ := kfreeN_shared L p hv j s (by omega) (by omega)
  have hl1 : FreeList s1 l := by
    unfold FreeList
    rw [g3, g4]
    exact hl
  obtain ⟨s2, k1, k2, k3⟩ := kfree_cons L s1 p l hv (by omega) hp0 (by omega) hl1 ha hn
  exact ⟨s2, by rw [kfreeN_snoc L p j s s1 g1, k1], k2, by rw [k3, Function.update_same]⟩

theorem not_panics_aligned {L : Layout} {q : Nat} (h : ¬ kfreePanics L q) : q % PGSIZE = 0 := by
  by_contra h1
  exact h (Or.inl h1)

theorem not_panics_lt {L : Layout} {q : Nat} (h : ¬ kfreePanics L q) : q < L.PHYSTOP := by
  by_contra h1
  exact h (Or.inr (Or.inr (by omega)))

theorem not_panics_ge {L : Layout} {q : Nat} (h : ¬ kfreePanics L q) : L.kend ≤ q := by
  by_contra h1
  exact h (Or.inr (Or.inl (by omega)))

/-- C5: let `p` be the page returned by `kalloc` in a state whose free list `p :: l` is a
nil-terminated chain (hence without duplicates) of pages that pass the validation of `kfree`,
and let `K ≤ 254`.  After `K` calls of `prcinc(p)`, `prccnt(p)` is `1 + K`; after any `j ≤ K`
calls of `kfree(p)` the free list is still `l`, which does not contain `p`, and `prccnt(p)` is
`1 + K - j`; after the `(K+1)`-th call the free list is `p :: l`. -/
theorem sharing_needs_all_frees (L : Layout) (s : KState) (p : Nat) (l : List Nat) (K : Nat)
    (hP : L.PHYSTOP ≤ 2 ^ 64) (hl : FreeList s (p :: l))
    (hv : ∀ q ∈ p :: l, ¬ kfreePanics L q) (hK : K ≤ 254) :
    (kalloc L s).1 = p ∧ p ∉ l ∧
      (prccnt L (prcincN L K (kalloc L s).2 p) p).1 = 1 + K ∧
      (∀ j, j ≤ K → ∃ s3, kfreeN L j (prcincN L K (kalloc L s).2 p) p = .ok s3 ∧
        FreeList s3 l ∧ (prccnt L s3 p).1 = 1 + K - j) ∧
      (∃ s4, kfreeN L (K + 1) (prcincN L K (kalloc L s).2 p) p = .ok s4 ∧
        FreeList s4 (p :: l)) := by
  have ha : ∀ q ∈ p :: l, q % PGSIZE = 0 := fun q hq => not_panics_aligned (hv q hq)
  have hal : ∀ q ∈ l, q % PGSIZE = 0 := fun q hq => ha q (List.mem_cons_of_mem _ hq)
  have hvp := hv p (List.mem_cons_self _ _)
  have hn : p ∉ l := (List.nodup_cons.mp (isList_nodup hl)).1
  obtain ⟨h1, h2, h3⟩ := kalloc_cons L s p l hl ha
  have hc1 : (kalloc L s).2.table (PRCIDX L p) = 1 := by rw [h3, Function.update_same]
  obtain ⟨i1, i2, i3⟩ := prcincN_spec L p K (kalloc L s).2 (by omega)
  have hl2 : FreeList (prcincN L K (kalloc L s).2 p) l := by
    unfold FreeList
    rw [i2, i3]
    exact h2
  have hf2 : (prcincN L K (kalloc L s).2 p).freelist < 2 ^ 64 :=
    isList_lt (by norm_num) hl2 (fun q hq =>
      lt_of_lt_of_le (not_panics_lt (hv q (List.mem_cons_of_mem _ hq))) hP)
  refine ⟨h1, hn, ?_, ?_, ?_⟩
  · show (prcincN L K (kalloc L s).2 p).table (PRCIDX L p) = 1 + K
    omega
  · intro j hj
    obtain ⟨s3, g1, g2, g3, g4⟩ :=
      kfreeN_shared L p hvp j (prcincN L K (kalloc L s).2 p) (by omega) (by omega)
    refine ⟨s3, g1, ?_, ?_⟩
    · unfold FreeList
      rw [g3, g4]
      exact hl2
    · show s3.table (PRCIDX L p) = 1 + K - j
      omega
  · obtain ⟨s4, g1, g2, _⟩ := kfreeN_last L p l hvp hl.2.1 hal hn K
      (prcincN L K (kalloc L s).2 p) (by omega) (by omega) hf2 hl2
    exact ⟨s4, g1, g2⟩

theorem sharing_needs_all_frees_witness :
    (kalloc xv6 oneFree).1 = 0x87ffe000 ∧ 0x87ffe000 ∉ ([] : List Nat) ∧
      (prccnt xv6 (prcincN xv6 2 (kalloc xv6 oneFree).2 0x87ffe000) 0x87ffe000).1 = 1 + 2 ∧
      (∀ j, j ≤ 2 →
        ∃ s3, kfreeN xv6 j (prcincN xv6 2 (kalloc xv6 oneFree).2 0x87ffe000) 0x87ffe000 = .ok s3 ∧
          FreeList s3 [] ∧ (prccnt xv6 s3 0x87ffe000).1 = 1 + 2 - j) ∧
      (∃ s4, kfreeN xv6 (2 + 1) (prcincN xv6 2 (kalloc xv6 oneFree).2 0x87ffe000) 0x87ffe000
          = .ok s4 ∧ FreeList s4 [0x87ffe000]) :=
  sharing_needs_all_frees xv6 oneFree 0x87ffe000 [] 2 (by decide) (by decide) (by decide)
    (by decide)

/-- What two calls of `kfree(p)` in a row do to a page that is off the free list and has count
at most one. -/
theorem kfree_twice_aux (L : Layout) (s : KState) (p : Nat) (l : List Nat)
    (hk : 0 < L.kend) (hP : L.PHYSTOP ≤ 2 ^ 64) (hv : ¬ kfreePanics L p)
    (hc : s.table (PRCIDX L p) ≤ 1) (hf : s.freelist < 2 ^ 64) (hl : FreeList s l)
    (ha : ∀ q ∈ l, q % PGSIZE = 0) (hn : p ∉ l) :
    ∃ s1 s2, kfree L s p = .ok s1 ∧ FreeList s1 (p :: l) ∧ s1.table (PRCIDX L p) = 0 ∧
      kfree L s1 p = .ok s2 ∧ s2.table (PRCIDX L p) = 0 ∧ s2.freelist = p ∧
      readU64 s2.mem p = p ∧ ∀ l2, ¬ FreeList s2 l2 := by
  have hp0 : p ≠ 0 := by
    have := not_panics_ge hv
    omega
  have hp64 : p < 2 ^ 64 := lt_of_lt_of_le (not_panics_lt hv) hP
  obtain ⟨s1, g1, g2, g3⟩ := kfree_cons L s p l hv hc hp0 hf hl ha hn
  have hc1 : s1.table (PRCIDX L p) = 0 := by rw [g3, Function.update_same]
  have g4 := kfree_last L s1 p hv (by omega)
  have hloop : readU64 (writeU64 (memset s1.mem p 1 PGSIZE) p s1.freelist) p = p := by
    rw [readU64_writeU64_same _ _ _ (by rw [g2.1]; exact hp64)]
    exact g2.1
  refine ⟨s1, _, g1, g2, hc1, g4, ?_, rfl, hloop, ?_⟩
  · show Function.update s1.table (PRCIDX L p) 0 (PRCIDX L p) = 0
    rw [Function.update_same]
  · intro l2 h2
    exact isList_self_loop hp0 hloop l2 h2

/-- C6, as stated, fails: with the free list `[0x87ffe000]` and the page `0x87fff000` off the
list with count 0, two calls of `kfree(0x87fff000)` leave a state whose free list is no list
that contains `0x87fff000` once and still reaches `0x87ffe000`. -/
theorem kfree_twice_loses_list :
    FreeList oneFree [0x87ffe000] ∧ ¬ kfreePanics xv6 0x87fff000 ∧
      (prccnt xv6 oneFree 0x87fff000).1 ≤ 1 ∧ 0x87fff000 ∉ [0x87ffe000] ∧
      ∃ s2, kfreeN xv6 2 oneFree 0x87fff000 = .ok s2 ∧
        ¬ ∃ l, FreeList s2 l ∧ l.count 0x87fff000 = 1 ∧ 0x87ffe000 ∈ l := by
  refine ⟨by decide, by decide, by decide, by decide, ?_⟩
  obtain ⟨s1, s2, g1, _, _, g4, _, _, _, g8⟩ :=
    kfree_twice_aux xv6 oneFree 0x87fff000 [0x87ffe000] (by decide) (by decide) (by decide)
      (by decide) (by decide) (by decide) (by decide) (by decide)
  refine ⟨s2, ?_, fun ⟨l, hl, _⟩ => g8 l hl⟩
  simp only [kfreeN, g1, g4]

/-- C6, amended: for a page `p` that passes the validation of `kfree`, has count at most one
and is not on the free list `l`, the first `kfree(p)` makes the free list `p :: l` with count
0; the second `kfree(p)` keeps the count at 0 (clamped, not wrapped) and pushes `p` again, so
that the head is `p` and the link of `p` points to `p` itself: the free list is then no
nil-terminated list any more. -/
theorem kfree_twice_self_loop (L : Layout) (s : KState) (p : Nat) (l : List Nat)
    (hk : 0 < L.kend) (hP : L.PHYSTOP ≤ 2 ^ 64) (hv : ¬ kfreePanics L p)
    (hc : (prccnt L s p).1 ≤ 1) (hf : s.freelist < 2 ^ 64) (hl : FreeList s l)
    (ha : ∀ q ∈ l, q % PGSIZE = 0) (hn : p ∉ l) :
    ∃ s1 s2, kfree L s p = .ok s1 ∧ FreeList s1 (p :: l) ∧ (prccnt L s1 p).1 = 0 ∧
      kfree L s1 p = .ok s2 ∧ (prccnt L s2 p).1 = 0 ∧ s2.freelist = p ∧
      readU64 s2.mem p = p ∧ ∀ l2, ¬ FreeList s2 l2 :=
  kfree_twice_aux L s p l hk hP hv hc hf hl ha hn

theorem kfree_twice_self_loop_witness :
    ∃ s1 s2, kfree xv6 oneFree 0x87fff000 = .ok s1 ∧ FreeList s1 [0x87fff000, 0x87ffe000] ∧
      (prccnt xv6 s1 0x87fff000).1 = 0 ∧
      kfree xv6 s1 0x87fff000 = .ok s2 ∧ (prccnt xv6 s2 0x87fff000).1 = 0 ∧
      s2.freelist = 0x87fff000 ∧ readU64 s2.mem 0x87fff000 = 0x87fff000 ∧
      ∀ l2, ¬ FreeList s2 l2 :=
  kfree_twice_self_loop xv6 oneFree 0x87fff000 [0x87ffe000] (by decide) (by decide) (by decide)
    (by decide) (by decide) (by decide) (by decide) (by decide)

/-- `kfree(p)` then `kalloc()` for a page with count at most one that is not on the free
list `l`. -/
theorem kfree_kalloc_aux (L : Layout) (s : KState) (p : Nat) (l : List Nat)
    (hk : 0 < L.kend) (hv : ¬ kfreePanics L p) (hc : s.table (PRCIDX L p) ≤ 1)
    (hf : s.freelist < 2 ^ 64) (hl : FreeList s l) (ha : ∀ q ∈ l, q % PGSIZE = 0)
    (hn : p ∉ l) :
    ∃ s1, kfree L s p = .ok s1 ∧ (kalloc L s1).1 = p ∧ FreeList (kalloc L s1).2 l ∧
      (kalloc L s1).2.freelist = s.freelist ∧ (kalloc L s1).2.table (PRCIDX L p) = 1 := by
  have hp0 : p ≠ 0 := by
    have := not_panics_ge hv
    omega
  obtain ⟨s1, g1, g2, _⟩ := kfree_cons L s p l hv hc hp0 hf hl ha hn
  have hal : ∀ q ∈ p :: l, q % PGSIZE = 0 := by
    intro q hq
    rcases List.mem_cons.mp hq with e | e
    · rw [e]; exact not_panics_aligned hv
    · exact ha q e
  obtain ⟨k1, k2, k3⟩ := kalloc_cons L s1 p l g2 hal
  refine ⟨s1, g1, k1, k2, ?_, by rw [k3, Function.update_same]⟩
  cases l with
  | nil => exact (show (kalloc L s1).2.freelist = 0 from k2).trans (show s.freelist = 0 from hl).symm
  | cons q qs => exact (k2.1).trans (hl.1).symm

/-- C10, as stated, fails: the page `0x87ffe000` is the only page of the free list and has
count 0, it passes the validation of `kfree`, and after `kfree(0x87ffe000)` followed by
`kalloc()`, which returns `0x87ffe000`, the free list is no longer `[0x87ffe000]`: the page is
still the head but its link word holds the allocation fill. -/
theorem kfree_kalloc_on_listed_page :
    FreeList oneFree [0x87ffe000] ∧ ¬ kfreePanics xv6 0x87ffe000 ∧
      (prccnt xv6 oneFree 0x87ffe000).1 ≤ 1 ∧
      ∃ s1, kfree xv6 oneFree 0x87ffe000 = .ok s1 ∧ (kalloc xv6 s1).1 = 0x87ffe000 ∧
        (kalloc xv6 s1).2.freelist = 0x87ffe000 ∧
        readU64 (kalloc xv6 s1).2.mem 0x87ffe000 = 0x0505050505050505 ∧
        ¬ FreeList (kalloc xv6 s1).2 [0x87ffe000] := by
  refine ⟨by decide, by decide, by decide, _,
    kfree_last xv6 oneFree 0x87ffe000 (by decide) (by decide), ?_, ?_, ?_, ?_⟩
  · decide
  · decide
  · decide
  · decide

/-- C10, amended: for every page `p` that passes the validation of `kfree`, has count at most
one and is not on the free list `l` (a chain of page-aligned pages), `kfree(p)` followed
immediately by `kalloc()` returns `p`, leaves the free list equal to `l` with the same head
pointer as before the `kfree`, and leaves the count of `p` equal to 1. -/
theorem kfree_then_kalloc (L : Layout) (s : KState) (p : Nat) (l : List Nat)
    (hk : 0 < L.kend) (hv : ¬ kfreePanics L p) (hc : (prccnt L s p).1 ≤ 1)
    (hf : s.freelist < 2 ^ 64) (hl : FreeList s l) (ha : ∀ q ∈ l, q % PGSIZE = 0)
    (hn : p ∉ l) :
    ∃ s1, kfree L s p = .ok s1 ∧ (kalloc L s1).1 = p ∧ FreeList (kalloc L s1).2 l ∧
      (kalloc L s1).2.freelist = s.freelist ∧ (prccnt L (kalloc L s1).2 p).1 = 1 :=
  kfree_kalloc_aux L s p l hk hv hc hf hl ha hn

theorem kfree_then_kalloc_witness :
    ∃ s1, kfree xv6 oneFree 0x87fff000 = .ok s1 ∧ (kalloc xv6 s1).1 = 0x87fff000 ∧
      FreeList (kalloc xv6 s1).2 [0x87ffe000] ∧
      (kalloc xv6 s1).2.freelist = oneFree.freelist ∧
      (prccnt xv6 (kalloc xv6 s1).2 0x87fff000).1 = 1 :=
  kfree_then_kalloc xv6 oneFree 0x87fff000 [0x87ffe000] (by decide) (by decide) (by decide)
    (by decide) (by decide) (by decide) (by decide)

/-! ## Initialisation -/

theorem mem_pagesDesc {start q : Nat} : ∀ {k : Nat},
    q ∈ pagesDesc start k ↔ ∃ i, i < k ∧ q = start + i * PGSIZE
  | 0 => by simp [pagesDesc]
  | k + 1 => by
    rw [pagesDesc, List.mem_cons, mem_pagesDesc]
    constructor
    · rintro (h | ⟨i, hi, h⟩)
      · exact ⟨k, by omega, h⟩
      · exact ⟨i, by omega, h⟩
    · rintro ⟨i, hi, h⟩
      by_cases e : i = k
      · exact Or.inl (e ▸ h)
      · exact Or.inr ⟨i, by omega, h⟩

theorem length_pagesDesc (start : Nat) : ∀ k, (pagesDesc start k).length = k
  | 0 => rfl
  | k + 1 => by rw [pagesDesc, List.length_cons, length_pagesDesc]

theorem chain_pagesDesc (start : Nat) : ∀ k,
    List.Chain' (fun a b => a = b + PGSIZE) (pagesDesc start k)
  | 0 => List.chain'_nil
  | 1 => List.chain'_singleton _
  | k + 2 => by
    rw [pagesDesc, pagesDesc, List.chain'_cons]
    refine ⟨by ring, ?_⟩
    have := chain_pagesDesc start (k + 1)
    rwa [pagesDesc] at this

theorem PGROUNDUP_spec (x : Nat) (h : x + PGSIZE ≤ 2 ^ 64) :
    PGROUNDUP x % PGSIZE = 0 ∧ x ≤ PGROUNDUP x ∧ PGROUNDUP x < x + PGSIZE := by
  unfold PGROUNDUP PGSIZE at *
  omega

theorem PRCIDX_lt (L : Layout) (hL : L.WF) (p : Nat) (h1 : L.KERNBASE ≤ p)
    (h2 : p < L.PHYSTOP) : PRCIDX L p < PRCSIZE L := by
  obtain ⟨_, _, g3, g4⟩ := hL
  unfold PRCIDX PRCSIZE PGSIZE at *
  omega

theorem PRCIDX_inj (L : Layout) (hL : L.WF) (p q : Nat) (hp : ¬ kfreePanics L p)
    (hq : ¬ kfreePanics L q) (h : PRCIDX L p = PRCIDX L q) : p = q := by
  obtain ⟨g1, g2, g3, g4⟩ := hL
  have a1 := not_panics_aligned hp
  have a2 := not_panics_aligned hq
  have b1 := not_panics_lt hp
  have b2 := not_panics_lt hq
  have c1 := not_panics_ge hp
  have c2 := not_panics_ge hq
  unfold PRCIDX PGSIZE at *
  omega

/-- The loop of `freerange` started at page number `j` of the range, with the `j` lower pages
already on the free list and a zero table: it pushes all remaining pages. -/
theorem freerangeLoop_spec (L : Layout) (hL : L.WF) : ∀ (n : Nat) (s : KState) (j : Nat),
    (L.PHYSTOP - (PGROUNDUP L.kend + j * PGSIZE)) / PGSIZE ≤ n →
    j ≤ npages L →
    FreeList s (pagesDesc (PGROUNDUP L.kend) j) →
    (∀ i, i < PRCSIZE L → s.table i = 0) →
    ∃ s1, freerangeLoop L n s (PGROUNDUP L.kend + j * PGSIZE) L.PHYSTOP = .ok s1 ∧
      FreeList s1 (pagesDesc (PGROUNDUP L.kend) (npages L)) ∧
      (∀ i, i < PRCSIZE L → s1.table i = 0) ∧ (∀ i, PRCSIZE L ≤ i → s1.table i = s.table i) := by
  obtain ⟨w1, w2, w3, w4⟩ := id hL
  obtain ⟨r1, r2, r3⟩ := PGROUNDUP_spec L.kend (by unfold PGSIZE at *; omega)
  intro n
  induction n with
  | zero =>
    intro s j hn hj hl ht
    have hstop : ¬ (PGROUNDUP L.kend + j * PGSIZE + PGSIZE ≤ L.PHYSTOP) := by
      unfold PGSIZE at *
      omega
    have hjN : j = npages L := by
      unfold npages PGSIZE at *
      omega
    refine ⟨s, ?_, hjN ▸ hl, ht, fun _ _ => rfl⟩
    rw [freerangeLoop, if_neg hstop]
  | succ n ih =>
    intro s j hn hj hl ht
    by_cases hgo : PGROUNDUP L.kend + j * PGSIZE + PGSIZE ≤ L.PHYSTOP
    · have hv : ¬ kfreePanics L (PGROUNDUP L.kend + j * PGSIZE) := by
        unfold kfreePanics PGSIZE at *
        omega
      have hidx := PRCIDX_lt L hL (PGROUNDUP L.kend + j * PGSIZE) (by omega)
        (by unfold PGSIZE at *; omega)
      have hal : ∀ q ∈ pagesDesc (PGROUNDUP L.kend) j, q % PGSIZE = 0 := by
        intro q hq
        obtain ⟨i, _, e⟩ := mem_pagesDesc.mp hq
        unfold PGSIZE at *
        omega
      have hnm : PGROUNDUP L.kend + j * PGSIZE ∉ pagesDesc (PGROUNDUP L.kend) j := by
        intro hq
        obtain ⟨i, hi, e⟩ := mem_pagesDesc.mp hq
        unfold PGSIZE at *
        omega
      have hf : s.freelist < 2 ^ 64 := by
        refine isList_lt (by norm_num) hl (fun q hq => ?_)
        obtain ⟨i, hi, e⟩ := mem_pagesDesc.mp hq
        unfold PGSIZE at *
        omega
      obtain ⟨s1, g1, g2, g3⟩ := kfree_cons L s (PGROUNDUP L.kend + j * PGSIZE)
        (pagesDesc (PGROUNDUP L.kend) j) hv (by rw [ht _ hidx]; omega) (by omega) hf hl hal hnm
      have ht1 : ∀ i, i < PRCSIZE L → s1.table i = 0 := by
        intro i hi
        rw [g3]
        by_cases e : i = PRCIDX L (PGROUNDUP L.kend + j * PGSIZE)
        · rw [e, Function.update_same]
        · rw [Function.update_noteq e]
          exact ht i hi
      have hout : ∀ i, PRCSIZE L ≤ i → s1.table i = s.table i := by
        intro i hi
        rw [g3, Function.update_noteq (by omega)]
      obtain ⟨s2, k1, k2, k3, k4⟩ := ih s1 (j + 1)
        (by unfold PGSIZE at *; omega) (by unfold npages PGSIZE at *; omega) g2 ht1
      refine ⟨s2, ?_, k2, k3, fun i hi => (k4 i hi).trans (hout i hi)⟩
      rw [freerangeLoop, if_pos hgo, g1]
      have e : PGROUNDUP L.kend + j * PGSIZE + PGSIZE = PGROUNDUP L.kend + (j + 1) * PGSIZE := by
        ring
      rw [e]
      exact k1
    · have hjN : j = npages L := by
        unfold npages PGSIZE at *
        omega
      refine ⟨s, ?_, hjN ▸ hl, ht, fun _ _ => rfl⟩
      rw [freerangeLoop, if_neg hgo]

/-- The clearing loop of `kinit` stops and zeroes the entries from `i` up to `PRCSIZE`. -/
theorem prcClearLoop_spec (L : Layout) (hs : PRCSIZE L < 2 ^ 16) : ∀ (n i : Nat) (t : Nat → Nat),
    i ≤ PRCSIZE L → PRCSIZE L - i ≤ n →
    ∃ t1, prcClearLoop L n i t = .ok t1 ∧
      ∀ k, t1 k = if i ≤ k ∧ k < PRCSIZE L then 0 else t k
  | 0, i, t, h1, h2 => by
    refine ⟨t, by rw [prcClearLoop, if_neg (by omega)], fun k => ?_⟩
    rw [if_neg (by omega)]
  | n + 1, i, t, h1, h2 => by
    by_cases hi : i < PRCSIZE L
    · have hw : (i + 1) % 2 ^ 16 = i + 1 := Nat.mod_eq_of_lt (by omega)
      obtain ⟨t1, g1, g2⟩ := prcClearLoop_spec L hs n (i + 1) (Function.update t i 0)
        (by omega) (by omega)
      refine ⟨t1, by rw [prcClearLoop, if_pos hi, hw, g1], fun k => ?_⟩
      rw [g2 k]
      by_cases e : k = i
      · subst e
        rw [if_neg (by omega), Function.update_same, if_pos ⟨le_refl _, hi⟩]
      · rw [Function.update_noteq e]
        by_cases c : i + 1 ≤ k ∧ k < PRCSIZE L
        · rw [if_pos c, if_pos ⟨by omega, c.2⟩]
        · rw [if_neg c, if_neg (by omega)]
    · refine ⟨t, by rw [prcClearLoop, if_neg hi], fun k => ?_⟩
      rw [if_neg (by omega)]

theorem PRCSIZE_eq (L : Layout) (hL : L.WF) : PRCSIZE L = 32768 := by
  obtain ⟨_, _, _, g4⟩ := hL
  unfold PRCSIZE PGSIZE at *
  omega

/-- The result of `kinit` on a state with a null free list and a zero table. -/
theorem kinit_spec (L : Layout) (hL : L.WF) (s : KState) (h0 : s.freelist = 0)
    (ht : ∀ i, i < PRCSIZE L → s.table i = 0) :
    ∃ s1, kinit L s = .ok s1 ∧ FreeList s1 (pagesDesc (PGROUNDUP L.kend) (npages L)) ∧
      (∀ i, i < PRCSIZE L → s1.table i = 0) ∧ (∀ i, PRCSIZE L ≤ i → s1.table i = s.table i) := by
  have hsz := PRCSIZE_eq L hL
  obtain ⟨s1, g1, g2, g3, g4⟩ := freerangeLoop_spec L hL (L.PHYSTOP / PGSIZE) s 0
    (by unfold PGSIZE; omega) (Nat.zero_le _) h0 ht
  obtain ⟨t1, k1, k2⟩ := prcClearLoop_spec L (by omega) (2 ^ 16) 0 s1.table (Nat.zero_le _)
    (by omega)
  have hfr : freerange L s L.kend L.PHYSTOP = .ok s1 := by
    have := g1
    rw [Nat.zero_mul, Nat.add_zero] at this
    exact this
  refine ⟨{ s1 with table := t1 }, ?_, g2, ?_, ?_⟩
  · simp only [kinit, hfr, k1]
  · intro i hi
    show t1 i = 0
    rw [k2 i, if_pos ⟨Nat.zero_le _, hi⟩]
  · intro i hi
    show t1 i = s.table i
    rw [k2 i, if_neg (by omega)]
    exact g4 i hi

theorem mem_pagesDesc_range (L : Layout) (hL : L.WF) (p : Nat) :
    p ∈ pagesDesc (PGROUNDUP L.kend) (npages L) ↔
      (p % PGSIZE = 0 ∧ PGROUNDUP L.kend ≤ p ∧ p + PGSIZE ≤ L.PHYSTOP) := by
  obtain ⟨w1, w2, w3, w4⟩ := hL
  obtain ⟨r1, r2, r3⟩ := PGROUNDUP_spec L.kend (by unfold PGSIZE at *; omega)
  rw [mem_pagesDesc]
  constructor
  · rintro ⟨i, hi, e⟩
    unfold npages PGSIZE at *
    omega
  · rintro ⟨h1, h2, h3⟩
    refine ⟨(p - PGROUNDUP L.kend) / PGSIZE, ?_, ?_⟩
    · unfold npages PGSIZE at *
      omega
    · unfold PGSIZE at *
      omega

theorem pagesDesc_valid (L : Layout) (hL : L.WF) (p : Nat)
    (hp : p ∈ pagesDesc (PGROUNDUP L.kend) (npages L)) : ¬ kfreePanics L p := by
  obtain ⟨h1, h2, h3⟩ := (mem_pagesDesc_range L hL p).mp hp
  obtain ⟨w1, w2, w3, w4⟩ := hL
  obtain ⟨r1, r2, r3⟩ := PGROUNDUP_spec L.kend (by unfold PGSIZE at *; omega)
  unfold kfreePanics PGSIZE at *
  omega

theorem head_pagesDesc_max (start : Nat) : ∀ (k h : Nat), (pagesDesc start k).head? = some h →
    ∀ p ∈ pagesDesc start k, p ≤ h
  | 0, _, hh, _, _ => by simp [pagesDesc] at hh
  | k + 1, h, hh, p, hp => by
    simp only [pagesDesc, List.head?_cons, Option.some.injEq] at hh
    obtain ⟨i, hi, e⟩ := mem_pagesDesc.mp hp
    have : i * PGSIZE ≤ k * PGSIZE := Nat.mul_le_mul_right _ (by omega)
    omega

/-- C8: started with a null free list and a zero table, `kinit` returns, and afterwards the
free list is a list `l` that contains exactly the page-aligned addresses `p` with
`PGROUNDUP(end) ≤ p` and `p + PGSIZE ≤ PHYSTOP`, each exactly once, with the highest address
at the head and each entry `PGSIZE` above the next, and every entry of the table is 0. -/
theorem kinit_builds_free_list (L : Layout) (hL : L.WF) (s : KState) (h0 : s.freelist = 0)
    (ht : ∀ i, i < PRCSIZE L → s.table i = 0) :
    ∃ s1 l, kinit L s = .ok s1 ∧ FreeList s1 l ∧
      (∀ p, p ∈ l ↔ (p % PGSIZE = 0 ∧ PGROUNDUP L.kend ≤ p ∧ p + PGSIZE ≤ L.PHYSTOP)) ∧
      l.Nodup ∧
      (∀ h, l.head? = some h → ∀ p ∈ l, p ≤ h) ∧
      List.Chain' (fun a b => a = b + PGSIZE) l ∧
      (∀ i, i < PRCSIZE L → s1.table i = 0) := by
  obtain ⟨s1, g1, g2, g3, _⟩ := kinit_spec L hL s h0 ht
  exact ⟨s1, _, g1, g2, mem_pagesDesc_range L hL, isList_nodup g2, head_pagesDesc_max _ _,
    chain_pagesDesc _ _, g3⟩

theorem kinit_builds_free_list_witness :
    ∃ s1 l, kinit xv6 zeroState = .ok s1 ∧ FreeList s1 l ∧
      (∀ p, p ∈ l ↔ (p % PGSIZE = 0 ∧ PGROUNDUP xv6.kend ≤ p ∧ p + PGSIZE ≤ xv6.PHYSTOP)) ∧
      l.Nodup ∧
      (∀ h, l.head? = some h → ∀ p ∈ l, p ≤ h) ∧
      List.Chain' (fun a b => a = b + PGSIZE) l ∧
      (∀ i, i < PRCSIZE xv6 → s1.table i = 0) :=
  kinit_builds_free_list xv6 (by decide) zeroState rfl (fun _ _ => rfl)

/-- Successive calls of `kalloc` on a free list of page-aligned pages return its entries in
order, each with count 1, and empty the list. -/
theorem kallocN_spec (L : Layout) : ∀ (l : List Nat) (s : KState), FreeList s l →
    (∀ q ∈ l, q % PGSIZE = 0) →
    (kallocN L l.length s).1 = l.map (fun p => (p, 1)) ∧ (kallocN L l.length s).2.freelist = 0
  | [], s, hl, _ => ⟨rfl, hl⟩
  | p :: l, s, hl, ha => by
    obtain ⟨h1, h2, h3⟩ := kalloc_cons L s p l hl ha
    obtain ⟨g1, g2⟩ := kallocN_spec L l (kalloc L s).2 h2
      (fun q hq => ha q (List.mem_cons_of_mem _ hq))
    have hc : (kalloc L s).2.table (PRCIDX L p) = 1 := by
      rw [h3, Function.update_same]
    simp only [List.length_cons, kallocN, prccnt, List.map_cons, hc, h1]
    exact ⟨by rw [g1], g2⟩

/-- C9: after `kinit` (run on a null free list and a zero table) the free list is a list `l`
of `N = npages` pages; `N` successive calls of `kalloc` return `N` addresses that are
non-zero, pairwise distinct, page-aligned and inside `[end, PHYSTOP)`, each with `prccnt`
equal to 1 at its return, and the next call of `kalloc` returns 0. -/
theorem kalloc_exhausts (L : Layout) (hL : L.WF) (s : KState) (h0 : s.freelist = 0)
    (ht : ∀ i, i < PRCSIZE L → s.table i = 0) :
    ∃ s1 l, kinit L s = .ok s1 ∧ FreeList s1 l ∧ l.length = npages L ∧
      (kallocN L l.length s1).1.length = l.length ∧
      ((kallocN L l.length s1).1.map Prod.fst).Nodup ∧
      (∀ r ∈ (kallocN L l.length s1).1,
        r.1 ≠ 0 ∧ r.1 % PGSIZE = 0 ∧ L.kend ≤ r.1 ∧ r.1 + PGSIZE ≤ L.PHYSTOP ∧ r.2 = 1) ∧
      (kalloc L (kallocN L l.length s1).2).1 = 0 := by
  obtain ⟨s1, g1, g2, g3, _⟩ := kinit_spec L hL s h0 ht
  have hal : ∀ q ∈ pagesDesc (PGROUNDUP L.kend) (npages L), q % PGSIZE = 0 :=
    fun q hq => ((mem_pagesDesc_range L hL q).mp hq).1
  obtain ⟨k1, k2⟩ := kallocN_spec L _ s1 g2 hal
  refine ⟨s1, _, g1, g2, length_pagesDesc _ _, ?_, ?_, ?_, ?_⟩
  · rw [k1, List.length_map]
  · rw [k1, List.map_map]
    have : (Prod.fst ∘ fun p : Nat => ((p, 1) : Nat × Nat)) = id := rfl
    rw [this, List.map_id]
    exact isList_nodup g2
  · intro r hr
    rw [k1] at hr
    obtain ⟨p, hp, e⟩ := List.mem_map.mp hr
    subst e
    obtain ⟨a1, a2, a3⟩ := (mem_pagesDesc_range L hL p).mp hp
    have hv := pagesDesc_valid L hL p hp
    have := not_panics_ge hv
    obtain ⟨w1, _, _, _⟩ := hL
    exact ⟨by dsimp only; omega, a1, this, a3, rfl⟩
  · rw [kalloc_empty L _ k2]

theorem kalloc_exhausts_witness :
    ∃ s1 l, kinit xv6 zeroState = .ok s1 ∧ FreeList s1 l ∧ l.length = npages xv6 ∧
      (kallocN xv6 l.length s1).1.length = l.length ∧
      ((kallocN xv6 l.length s1).1.map Prod.fst).Nodup ∧
      (∀ r ∈ (kallocN xv6 l.length s1).1,
        r.1 ≠ 0 ∧ r.1 % PGSIZE = 0 ∧ xv6.kend ≤ r.1 ∧ r.1 + PGSIZE ≤ xv6.PHYSTOP ∧ r.2 = 1) ∧
      (kalloc xv6 (kallocN xv6 l.length s1).2).1 = 0 :=
  kalloc_exhausts xv6 (by decide) zeroState rfl (fun _ _ => rfl)

/-! ## Conservation -/

theorem conserved_valid_mem (L : Layout) (hL : L.WF) (l0 : List Nat)
    (hv0 : ∀ q ∈ l0, ¬ kfreePanics L q) (s : KState)
    (hc : ∀ i, i < PRCSIZE L → s.table i ≠ 0 → ∃ q ∈ l0, PRCIDX L q = i) (pa : Nat)
    (hv : ¬ kfreePanics L pa) (h1 : s.table (PRCIDX L pa) ≠ 0) : pa ∈ l0 := by
  have hk : L.KERNBASE ≤ pa := by
    have := not_panics_ge hv
    have := hL.1
    omega
  obtain ⟨q, hq, e⟩ := hc _ (PRCIDX_lt L hL pa hk (not_panics_lt hv)) h1
  rw [← PRCIDX_inj L hL q pa (hv0 q hq) hv e]
  exact hq

theorem conserved_kalloc (L : Layout) (hL : L.WF) (l0 : List Nat)
    (hv0 : ∀ q ∈ l0, ¬ kfreePanics L q) (s : KState) (h : Conserved L l0 s) :
    Conserved L l0 (kalloc L s).2 := by
  obtain ⟨l, hl, ha, hb, hc⟩ := h
  cases l with
  | nil =>
    rw [kalloc_empty L s hl]
    exact ⟨[], hl, ha, hb, hc⟩
  | cons p l =>
    have hval : ∀ q ∈ p :: l, ¬ kfreePanics L q := fun q hq => hv0 q (ha q hq).1
    obtain ⟨k1, k2, k3⟩ := kalloc_cons L s p l hl (fun q hq => not_panics_aligned (hval q hq))
    have hn : p ∉ l := (List.nodup_cons.mp (isList_nodup hl)).1
    have hpv := hval p (List.mem_cons_self _ _)
    have hne : ∀ q, ¬ kfreePanics L q → q ≠ p → PRCIDX L q ≠ PRCIDX L p :=
      fun q hq hqp e => hqp (PRCIDX_inj L hL q p hq hpv e)
    refine ⟨l, k2, ?_, ?_, ?_⟩
    · intro q hq
      have hq1 := List.mem_cons_of_mem p hq
      refine ⟨(ha q hq1).1, ?_⟩
      rw [k3, Function.update_noteq (hne q (hval q hq1) (fun e => hn (e ▸ hq)))]
      exact (ha q hq1).2
    · intro q hq0 hql
      rw [k3]
      by_cases e : q = p
      · rw [e, Function.update_same]
      · rw [Function.update_noteq (hne q (hv0 q hq0) e)]
        exact hb q hq0 (fun hm => (List.mem_cons.mp hm).elim e hql)
    · intro i hi hne0
      rw [k3] at hne0
      by_cases e : i = PRCIDX L p
      · exact ⟨p, (ha p (List.mem_cons_self _ _)).1, e.symm⟩
      · rw [Function.update_noteq e] at hne0
        exact hc i hi hne0

theorem conserved_kfree (L : Layout) (hL : L.WF) (l0 : List Nat)
    (hv0 : ∀ q ∈ l0, ¬ kfreePanics L q) (s : KState) (h : Conserved L l0 s) (pa : Nat)
    (hv : ¬ kfreePanics L pa) (h1 : 1 ≤ s.table (PRCIDX L pa)) :
    ∃ s1, kfree L s pa = .ok s1 ∧ Conserved L l0 s1 := by
  obtain ⟨l, hl, ha, hb, hc⟩ := h
  obtain ⟨w1, w2, w3, w4⟩ := id hL
  have hmem : pa ∈ l0 := conserved_valid_mem L hL l0 hv0 s hc pa hv (by omega)
  have hnl : pa ∉ l := fun hm => by
    have := (ha pa hm).2
    omega
  have hcnt : s.table (PRCIDX L pa) = 1 := hb pa hmem hnl
  have hp0 : pa ≠ 0 := by
    have := not_panics_ge hv
    omega
  have hf : s.freelist < 2 ^ 64 :=
    isList_lt (by norm_num) hl (fun q hq => by
      have := not_panics_lt (hv0 q (ha q hq).1)
      omega)
  obtain ⟨s1, g1, g2, g3⟩ := kfree_cons L s pa l hv (by omega) hp0 hf hl
    (fun q hq => not_panics_aligned (hv0 q (ha q hq).1)) hnl
  refine ⟨s1, g1, pa :: l, g2, ?_, ?_, ?_⟩
  · intro q hq
    rw [g3]
    rcases List.mem_cons.mp hq with e | hq1
    · rw [e, Function.update_same]
      exact ⟨hmem, rfl⟩
    · refine ⟨(ha q hq1).1, ?_⟩
      by_cases e : PRCIDX L q = PRCIDX L pa
      · rw [e, Function.update_same]
      · rw [Function.update_noteq e]
        exact (ha q hq1).2
  · intro q hq0 hql
    have hqp : q ≠ pa := fun e => hql (e ▸ List.mem_cons_self _ _)
    have hq1 : q ∉ l := fun hm => hql (List.mem_cons_of_mem _ hm)
    rw [g3, Function.update_noteq (fun e => hqp (PRCIDX_inj L hL q pa (hv0 q hq0) hv e))]
    exact hb q hq0 hq1
  · intro i hi hne0
    rw [g3] at hne0
    by_cases e : i = PRCIDX L pa
    · rw [e, Function.update_same] at hne0
      exact absurd rfl hne0
    · rw [Function.update_noteq e] at hne0
      exact hc i hi hne0

theorem conserved_runOps (L : Layout) (hL : L.WF) (l0 : List Nat)
    (hv0 : ∀ q ∈ l0, ¬ kfreePanics L q) : ∀ (ops : List Op) (s : KState),
    Conserved L l0 s → Allowed L s ops → ∃ s2, runOps L s ops = .ok s2 ∧ Conserved L l0 s2
  | [], s, h, _ => ⟨s, rfl, h⟩
  | Op.alloc :: ops, s, h, ha => by
    rw [runOps]
    exact conserved_runOps L hL l0 hv0 ops _ (conserved_kalloc L hL l0 hv0 s h) ha
  | Op.free pa :: ops, s, h, ha => by
    obtain ⟨a1, a2, a3⟩ := ha
    obtain ⟨s1, g1, g2⟩ := conserved_kfree L hL l0 hv0 s h pa a1 a2
    rw [g1] at a3
    rw [runOps, g1]
    exact conserved_runOps L hL l0 hv0 ops s1 g2 a3

theorem conserved_all_free (L : Layout) (l0 : List Nat) (hnd : l0.Nodup) (s : KState)
    (h : Conserved L l0 s) (hz : ∀ q ∈ l0, s.table (PRCIDX L q) = 0) :
    ∃ l, FreeList s l ∧ l.Perm l0 := by
  obtain ⟨l, hl, ha, hb, _⟩ := h
  refine ⟨l, hl, (List.perm_ext_iff_of_nodup (isList_nodup hl) hnd).mpr (fun q => ?_)⟩
  constructor
  · exact fun hq => (ha q hq).1
  · intro hq
    by_contra hn
    have := hb q hq hn
    rw [hz q hq] at this
    exact absurd this (by decide)

theorem conserved_kinit (L : Layout) (hL : L.WF) (s1 : KState)
    (hl : FreeList s1 (pagesDesc (PGROUNDUP L.kend) (npages L)))
    (ht : ∀ i, i < PRCSIZE L → s1.table i = 0) :
    Conserved L (pagesDesc (PGROUNDUP L.kend) (npages L)) s1 := by
  refine ⟨_, hl, fun q hq => ⟨hq, ?_⟩, fun q hq hn => absurd hq hn,
    fun i hi hne => absurd (ht i hi) hne⟩
  have hv := pagesDesc_valid L hL q hq
  have hk : L.KERNBASE ≤ q := by
    have := not_panics_ge hv
    have := hL.1
    omega
  exact ht _ (PRCIDX_lt L hL q hk (not_panics_lt hv))

/-- The sequences considered by `Allowed` are not only the empty one: on a free list `p :: l`
of valid pages, allocating and then freeing the returned page is allowed. -/
theorem allowed_alloc_free (L : Layout) (s : KState) (p : Nat) (l : List Nat)
    (hl : FreeList s (p :: l)) (hv : ∀ q ∈ p :: l, ¬ kfreePanics L q) :
    Allowed L s [Op.alloc, Op.free p] := by
  obtain ⟨_, _, k3⟩ := kalloc_cons L s p l hl (fun q hq => not_panics_aligned (hv q hq))
  have hvp := hv p (List.mem_cons_self _ _)
  have hc : (kalloc L s).2.table (PRCIDX L p) = 1 := by rw [k3, Function.update_same]
  refine ⟨hvp, by simp only [prccnt, hc, le_refl], ?_⟩
  rw [kfree_last L _ p hvp (by omega)]
  trivial

/-- C7: let `l0` be the free list after `kinit` (run on a null free list and a zero table).
For every finite sequence of `kalloc` and `kfree` calls in which each `kfree` is applied to a
page that is allocated at that moment (valid address, count at least 1), the sequence runs to
its end without a panic and, if then no page of `l0` is allocated any more (all counts 0), the
free list is a permutation of `l0`: the same pages, each exactly once. -/
theorem conservation_of_pages (L : Layout) (hL : L.WF) (s : KState) (h0 : s.freelist = 0)
    (ht : ∀ i, i < PRCSIZE L → s.table i = 0) :
    ∃ s1 l0, kinit L s = .ok s1 ∧ FreeList s1 l0 ∧ l0.length = npages L ∧
      ∀ ops, Allowed L s1 ops →
        ∃ s2, runOps L s1 ops = .ok s2 ∧
          ((∀ q ∈ l0, (prccnt L s2 q).1 = 0) → ∃ l, FreeList s2 l ∧ l.Perm l0) := by
  obtain ⟨s1, g1, g2, g3, _⟩ := kinit_spec L hL s h0 ht
  refine ⟨s1, _, g1, g2, length_pagesDesc _ _, fun ops ha => ?_⟩
  obtain ⟨s2, k1, k2⟩ := conserved_runOps L hL _ (pagesDesc_valid L hL) ops s1
    (conserved_kinit L hL s1 g2 g3) ha
  exact ⟨s2, k1, fun hz => conserved_all_free L _ (isList_nodup g2) s2 k2 hz⟩

theorem conservation_of_pages_witness :
    ∃ s1 l0, kinit xv6 zeroState = .ok s1 ∧ FreeList s1 l0 ∧ l0.length = npages xv6 ∧
      ∀ ops, Allowed xv6 s1 ops →
        ∃ s2, runOps xv6 s1 ops = .ok s2 ∧
          ((∀ q ∈ l0, (prccnt xv6 s2 q).1 = 0) → ∃ l, FreeList s2 l ∧ l.Perm l0) :=
  conservation_of_pages xv6 (by decide) zeroState rfl (fun _ _ => rfl)

/-! ## Counters: frame properties, fill patterns, overflow and table bounds -/

theorem PRCIDX_eq (L : Layout) (hP : L.Paged) (pa : Nat) (h1 : L.KERNBASE ≤ pa)
    (h2 : pa < L.PHYSTOP) : PRCIDX L pa = (pa - L.KERNBASE) / PGSIZE := by
  obtain ⟨g1, g2⟩ := hP
  unfold PRCIDX PGSIZE at *
  omega

theorem PRCIDX_eq_iff (L : Layout) (hP : L.Paged) (pa q : Nat) (h1 : L.KERNBASE ≤ pa)
    (h2 : pa < L.PHYSTOP) (h3 : L.KERNBASE ≤ q) (h4 : q < L.PHYSTOP) :
    PRCIDX L pa = PRCIDX L q ↔ pa / PGSIZE = q / PGSIZE := by
  rw [PRCIDX_eq L hP pa h1 h2, PRCIDX_eq L hP q h3 h4]
  obtain ⟨g1, g2⟩ := hP
  unfold PGSIZE at *
  omega

/-- C11: for an address `pa` with `KERNBASE ≤ pa < PHYSTOP` whose counter is below 255:
`prccnt(pa)` returns the table entry of the page of `pa` and leaves the state as it is; after
`prcinc(pa)`, `prccnt(pa)` is one greater than before, `prccnt(q)` is unchanged for every
in-range `q` that lies in a different page, and the free list (head pointer and memory) is
unchanged. -/
theorem prcinc_frame (L : Layout) (hP : L.Paged) (s : KState) (pa : Nat)
    (h1 : L.KERNBASE ≤ pa) (h2 : pa < L.PHYSTOP) (hc : (prccnt L s pa).1 < 255) :
    (prccnt L s pa).2 = s ∧
      (prccnt L s pa).1 = s.table ((pa - L.KERNBASE) / PGSIZE) ∧
      (prccnt L (prcinc L s pa) pa).1 = (prccnt L s pa).1 + 1 ∧
      (∀ q, L.KERNBASE ≤ q → q < L.PHYSTOP → q / PGSIZE ≠ pa / PGSIZE →
        (prccnt L (prcinc L s pa) q).1 = (prccnt L s q).1) ∧
      (prcinc L s pa).freelist = s.freelist ∧ (prcinc L s pa).mem = s.mem ∧
      (∀ l, FreeList s l → FreeList (prcinc L s pa) l) := by
  refine ⟨rfl, ?_, ?_, ?_, rfl, rfl, fun l hl => hl⟩
  · simp only [prccnt, PRCIDX_eq L hP pa h1 h2]
  · simp only [prccnt, prcinc, Function.update_same] at hc ⊢
    omega
  · intro q h3 h4 hne
    have : PRCIDX L q ≠ PRCIDX L pa := fun e =>
      hne ((PRCIDX_eq_iff L hP q pa h3 h4 h1 h2).mp e)
    simp only [prccnt, prcinc, Function.update_noteq this]

theorem prcinc_frame_witness :
    (prccnt xv6 shared3 0x87fff123).2 = shared3 ∧
      (prccnt xv6 shared3 0x87fff123).1 = shared3.table ((0x87fff123 - xv6.KERNBASE) / PGSIZE) ∧
      (prccnt xv6 (prcinc xv6 shared3 0x87fff123) 0x87fff123).1
        = (prccnt xv6 shared3 0x87fff123).1 + 1 ∧
      (∀ q, xv6.KERNBASE ≤ q → q < xv6.PHYSTOP → q / PGSIZE ≠ 0x87fff123 / PGSIZE →
        (prccnt xv6 (prcinc xv6 shared3 0x87fff123) q).1 = (prccnt xv6 shared3 q).1) ∧
      (prcinc xv6 shared3 0x87fff123).freelist = shared3.freelist ∧
      (prcinc xv6 shared3 0x87fff123).mem = shared3.mem ∧
      (∀ l, FreeList shared3 l → FreeList (prcinc xv6 shared3 0x87fff123) l) :=
  prcinc_frame xv6 (by decide) shared3 0x87fff123 (by decide) (by decide) (by decide)

/-- C12: for an address `pa` that passes the validation of `kfree` and whose counter is
greater than 1, `kfree(pa)` returns and leaves the free list unchanged (same head pointer,
same memory, hence the same list), writes no byte of memory (no debug fill), and leaves every
table entry other than the one of `pa` unchanged; the entry of `pa` does change. -/
theorem kfree_shared_frame (L : Layout) (s : KState) (pa : Nat) (hv : ¬ kfreePanics L pa)
    (hc : 1 < (prccnt L s pa).1) :
    ∃ s1, kfree L s pa = .ok s1 ∧ s1.freelist = s.freelist ∧ s1.mem = s.mem ∧
      (∀ l, FreeList s l → FreeList s1 l) ∧
      (∀ i, i ≠ PRCIDX L pa → s1.table i = s.table i) ∧
      (∀ q, PRCIDX L q ≠ PRCIDX L pa → (prccnt L s1 q).1 = (prccnt L s q).1) ∧
      (prccnt L s1 pa).1 = ((prccnt L s pa).1 - 1) % 256 ∧
      (prccnt L s1 pa).1 ≠ (prccnt L s pa).1 := by
  have hc1 : 1 < s.table (PRCIDX L pa) := hc
  refine ⟨_, kfree_shared L s pa hv hc1, rfl, rfl, fun l hl => hl, ?_, ?_, ?_, ?_⟩
  · intro i hi
    simp only [Function.update_noteq hi]
  · intro q hq
    simp only [prccnt, Function.update_noteq hq]
  · simp only [prccnt, Function.update_same]
  · simp only [prccnt, Function.update_same]
    omega

theorem kfree_shared_frame_witness :
    ∃ s1, kfree xv6 shared3 0x87fff000 = .ok s1 ∧ s1.freelist = shared3.freelist ∧
      s1.mem = shared3.mem ∧
      (∀ l, FreeList shared3 l → FreeList s1 l) ∧
      (∀ i, i ≠ PRCIDX xv6 0x87fff000 → s1.table i = shared3.table i) ∧
      (∀ q, PRCIDX xv6 q ≠ PRCIDX xv6 0x87fff000 →
        (prccnt xv6 s1 q).1 = (prccnt xv6 shared3 q).1) ∧
      (prccnt xv6 s1 0x87fff000).1 = ((prccnt xv6 shared3 0x87fff000).1 - 1) % 256 ∧
      (prccnt xv6 s1 0x87fff000).1 ≠ (prccnt xv6 shared3 0x87fff000).1 :=
  kfree_shared_frame xv6 shared3 0x87fff000 (by decide) (by decide)

/-- C13: right after a call of `kalloc` that returns a non-null `p`, every one of the `PGSIZE`
bytes of page `p` is the allocation fill 5; and the free fill used by `kfree` is another
byte: whenever `kfree` frees a page `q` (valid address, count at most one), every byte it
leaves in page `q` after the link word, from `q + 8` to `q + PGSIZE - 1`, is 1 and differs
from every byte `kalloc` left in page `p`. -/
theorem kalloc_fills_page (L : Layout) (s : KState) (p : Nat) (hr : (kalloc L s).1 = p)
    (hp : p ≠ 0) :
    (∀ a, p ≤ a → a < p + PGSIZE → (kalloc L s).2.mem a = 5) ∧
      (∀ (t : KState) (q : Nat), ¬ kfreePanics L q → (prccnt L t q).1 ≤ 1 →
        ∃ t1, kfree L t q = .ok t1 ∧
          ∀ a b, q + 8 ≤ a → a < q + PGSIZE → p ≤ b → b < p + PGSIZE →
            t1.mem a = 1 ∧ t1.mem a ≠ (kalloc L s).2.mem b) := by
  have h0 : s.freelist ≠ 0 := by
    intro h
    rw [kalloc_empty L s h] at hr
    exact hp hr.symm
  have h5 : ∀ a, p ≤ a → a < p + PGSIZE → (kalloc L s).2.mem a = 5 := by
    rw [kalloc_nonempty L s h0] at hr ⊢
    have hr1 : s.freelist = p := hr
    intro a h1 h2
    show memset s.mem s.freelist 5 PGSIZE a = 5
    rw [hr1]
    simp only [memset, if_pos (And.intro h1 h2)]
  refine ⟨h5, fun t q hv hc => ⟨_, kfree_last L t q hv hc, fun a b h1 h2 h3 h4 => ?_⟩⟩
  have h1f : writeU64 (memset t.mem q 1 PGSIZE) q t.freelist a = 1 := by
    simp only [writeU64, memset, if_neg (show ¬ (q ≤ a ∧ a < q + 8) by omega),
      if_pos (show q ≤ a ∧ a < q + PGSIZE from ⟨by omega, h2⟩)]
  refine ⟨h1f, ?_⟩
  show writeU64 (memset t.mem q 1 PGSIZE) q t.freelist a ≠ (kalloc L s).2.mem b
  rw [h1f, h5 b h3 h4]
  decide

theorem kalloc_fills_page_witness :
    (∀ a, 0x87ffe000 ≤ a → a < 0x87ffe000 + PGSIZE → (kalloc xv6 oneFree).2.mem a = 5) ∧
      (∀ (t : KState) (q : Nat), ¬ kfreePanics xv6 q → (prccnt xv6 t q).1 ≤ 1 →
        ∃ t1, kfree xv6 t q = .ok t1 ∧
          ∀ a b, q + 8 ≤ a → a < q + PGSIZE → 0x87ffe000 ≤ b → b < 0x87ffe000 + PGSIZE →
            t1.mem a = 1 ∧ t1.mem a ≠ (kalloc xv6 oneFree).2.mem b) :=
  kalloc_fills_page xv6 oneFree 0x87ffe000 (by decide) (by decide)

/-- C14, as stated, fails: `kfree(0x87fff000)` on a page of count 0 brings the page to the
head of the free list with count 0, and yet its first byte is not the free fill 1: it is the
low byte of the link to the old head `0x87ffe000`. -/
theorem kfree_link_overwrites_fill :
    ¬ kfreePanics xv6 0x87fff000 ∧
      ∃ s1, kfree xv6 oneFree 0x87fff000 = .ok s1 ∧ (prccnt xv6 s1 0x87fff000).1 = 0 ∧
        FreeList s1 [0x87fff000, 0x87ffe000] ∧ s1.mem 0x87fff000 = 0 ∧
        ¬ (∀ a, 0x87fff000 ≤ a → a < 0x87fff000 + PGSIZE → s1.mem a = 1) := by
  refine ⟨by decide, _, kfree_last xv6 oneFree 0x87fff000 (by decide) (by decide), by decide,
    by decide, by decide, fun h => ?_⟩
  have := h 0x87fff000 (by decide) (by decide)
  revert this
  decide

/-- C14, amended: right after a `kfree(p)` that brings the count of `p` to zero and puts `p`
on the free list, the first 8 bytes of page `p` hold the link to the previous head of the
free list and every other byte of the page, from `p + 8` to `p + PGSIZE - 1`, equals the
free fill 1. -/
theorem kfree_fills_page (L : Layout) (s : KState) (p : Nat) (hv : ¬ kfreePanics L p)
    (hc : (prccnt L s p).1 ≤ 1) (hf : s.freelist < 2 ^ 64) :
    ∃ s1, kfree L s p = .ok s1 ∧ (prccnt L s1 p).1 = 0 ∧ s1.freelist = p ∧
      readU64 s1.mem p = s.freelist ∧
      (∀ a, p + 8 ≤ a → a < p + PGSIZE → s1.mem a = 1) := by
  refine ⟨_, kfree_last L s p hv hc, ?_, rfl, readU64_writeU64_same _ _ _ hf, ?_⟩
  · simp only [prccnt, Function.update_same]
  · intro a h1 h2
    show writeU64 (memset s.mem p 1 PGSIZE) p s.freelist a = 1
    simp only [writeU64, memset, if_neg (show ¬ (p ≤ a ∧ a < p + 8) by omega),
      if_pos (show p ≤ a ∧ a < p + PGSIZE from ⟨by omega, h2⟩)]

theorem kfree_fills_page_witness :
    ∃ s1, kfree xv6 oneFree 0x87fff000 = .ok s1 ∧ (prccnt xv6 s1 0x87fff000).1 = 0 ∧
      s1.freelist = 0x87fff000 ∧ readU64 s1.mem 0x87fff000 = oneFree.freelist ∧
      (∀ a, 0x87fff000 + 8 ≤ a → a < 0x87fff000 + PGSIZE → s1.mem a = 1) :=
  kfree_fills_page xv6 oneFree 0x87fff000 (by decide) (by decide) (by decide)

theorem prcincN_mod (L : Layout) (p : Nat) : ∀ (K : Nat) (s : KState),
    s.table (PRCIDX L p) < 256 →
      (prcincN L K s p).table (PRCIDX L p) = (s.table (PRCIDX L p) + K) % 256 ∧
        (prcincN L K s p).mem = s.mem ∧ (prcincN L K s p).freelist = s.freelist
  | 0, s, h => ⟨(Nat.mod_eq_of_lt h).symm, rfl, rfl⟩
  | K + 1, s, h => by
    have hs : (prcinc L s p).table (PRCIDX L p) = (s.table (PRCIDX L p) + 1) % 256 := by
      simp only [prcinc, Function.update_same]
    obtain ⟨h1, h2, h3⟩ := prcincN_mod L p K (prcinc L s p) (by rw [hs]; omega)
    refine ⟨?_, h2, h3⟩
    show (prcincN L K (prcinc L s p) p).table (PRCIDX L p) = _
    rw [h1, hs]
    omega

/-- C18: `prcinc` is total (it has no error result) and increments the 8-bit counter modulo
256, so on a count of 255 it leaves 0.  Consequently, for the page `p` returned by `kalloc`
from a free list `p :: l` of pages that pass the validation of `kfree`, after 255 calls of
`prcinc(p)` the value of `prccnt(p)` is 0 and a single `kfree(p)` puts `p` back at the head of
the free list. -/
theorem prcinc_overflow (L : Layout) (s : KState) (p : Nat) (l : List Nat)
    (hP : L.PHYSTOP ≤ 2 ^ 64) (hl : FreeList s (p :: l))
    (hv : ∀ q ∈ p :: l, ¬ kfreePanics L q) :
    (∀ (t : KState) (pa : Nat),
        (prccnt L (prcinc L t pa) pa).1 = ((prccnt L t pa).1 + 1) % 256 ∧
          ((prccnt L t pa).1 = 255 → (prccnt L (prcinc L t pa) pa).1 = 0)) ∧
      (kalloc L s).1 = p ∧ (prccnt L (kalloc L s).2 p).1 = 1 ∧
      (prccnt L (prcincN L 255 (kalloc L s).2 p) p).1 = 0 ∧
      ∃ s1, kfree L (prcincN L 255 (kalloc L s).2 p) p = .ok s1 ∧ FreeList s1 (p :: l) := by
  have ha : ∀ q ∈ p :: l, q % PGSIZE = 0 := fun q hq => not_panics_aligned (hv q hq)
  have hal : ∀ q ∈ l, q % PGSIZE = 0 := fun q hq => ha q (List.mem_cons_of_mem _ hq)
  have hvp := hv p (List.mem_cons_self _ _)
  have hn : p ∉ l := (List.nodup_cons.mp (isList_nodup hl)).1
  obtain ⟨h1, h2, h3⟩ := kalloc_cons L s p l hl ha
  have hc1 : (kalloc L s).2.table (PRCIDX L p) = 1 := by rw [h3, Function.update_same]
  obtain ⟨i1, i2, i3⟩ := prcincN_mod L p 255 (kalloc L s).2 (by omega)
  have hz : (prcincN L 255 (kalloc L s).2 p).table (PRCIDX L p) = 0 := by
    rw [i1, hc1]
  have hl2 : FreeList (prcincN L 255 (kalloc L s).2 p) l := by
    unfold FreeList
    rw [i2, i3]
    exact h2
  have hf2 : (prcincN L 255 (kalloc L s).2 p).freelist < 2 ^ 64 :=
    isList_lt (by norm_num) hl2 (fun q hq =>
      lt_of_lt_of_le (not_panics_lt (hv q (List.mem_cons_of_mem _ hq))) hP)
  refine ⟨fun t pa => ?_, h1, hc1, hz, ?_⟩
  · simp only [prccnt, prcinc, Function.update_same]
    refine ⟨trivial, fun h => ?_⟩
    rw [h]
  · obtain ⟨s1, g1, g2, _⟩ := kfree_cons L _ p l hvp (by omega) hl.2.1 hf2 hl2 hal hn
    exact ⟨s1, g1, g2⟩

theorem prcinc_overflow_witness :
    (∀ (t : KState) (pa : Nat),
        (prccnt xv6 (prcinc xv6 t pa) pa).1 = ((prccnt xv6 t pa).1 + 1) % 256 ∧
          ((prccnt xv6 t pa).1 = 255 → (prccnt xv6 (prcinc xv6 t pa) pa).1 = 0)) ∧
      (kalloc xv6 oneFree).1 = 0x87ffe000 ∧
      (prccnt xv6 (kalloc xv6 oneFree).2 0x87ffe000).1 = 1 ∧
      (prccnt xv6 (prcincN xv6 255 (kalloc xv6 oneFree).2 0x87ffe000) 0x87ffe000).1 = 0 ∧
      ∃ s1, kfree xv6 (prcincN xv6 255 (kalloc xv6 oneFree).2 0x87ffe000) 0x87ffe000 = .ok s1 ∧
        FreeList s1 [0x87ffe000] :=
  prcinc_overflow xv6 oneFree 0x87ffe000 [] (by decide) (by decide) (by decide)

/-- C19: with `PGSIZE = 4096`, `KERNBASE` page-aligned and `[KERNBASE, PHYSTOP)` made of
`PRCSIZE = 32768` pages: for every address `pa` with `KERNBASE ≤ pa < PHYSTOP` the index
`PRCIDX(pa)` equals `(pa - KERNBASE) / PGSIZE` (the 16-bit cast loses nothing) and is strictly
below `PRCSIZE`, so the table entry that `prcinc`, `prccnt`, `kfree` and `kalloc` access
for such an address exists; and two such addresses have the same index if and only if they
lie in the same page. -/
theorem PRCIDX_in_bounds (L : Layout) (hP : L.Paged) (pa : Nat) (h1 : L.KERNBASE ≤ pa)
    (h2 : pa < L.PHYSTOP) :
    PGSIZE = 4096 ∧ PRCSIZE L = 32768 ∧
      PRCIDX L pa = (pa - L.KERNBASE) / PGSIZE ∧ PRCIDX L pa < PRCSIZE L ∧
      (∀ q, L.KERNBASE ≤ q → q < L.PHYSTOP →
        (PRCIDX L pa = PRCIDX L q ↔ pa / PGSIZE = q / PGSIZE)) := by
  have e := PRCIDX_eq L hP pa h1 h2
  refine ⟨rfl, ?_, e, ?_, fun q h3 h4 => PRCIDX_eq_iff L hP pa q h1 h2 h3 h4⟩
  · obtain ⟨g1, g2⟩ := hP
    unfold PRCSIZE PGSIZE at *
    omega
  · rw [e]
    obtain ⟨g1, g2⟩ := hP
    unfold PRCSIZE PGSIZE at *
    omega

theorem PRCIDX_in_bounds_witness :
    PGSIZE = 4096 ∧ PRCSIZE xv6 = 32768 ∧
      PRCIDX xv6 0x87ffffff = (0x87ffffff - xv6.KERNBASE) / PGSIZE ∧
      PRCIDX xv6 0x87ffffff < PRCSIZE xv6 ∧
      (∀ q, xv6.KERNBASE ≤ q → q < xv6.PHYSTOP →
        (PRCIDX xv6 0x87ffffff = PRCIDX xv6 q ↔ 0x87ffffff / PGSIZE = q / PGSIZE)) :=
  PRCIDX_in_bounds xv6 (by decide) 0x87ffffff (by decide) (by decide)

/-! ## The free-list invariant -/

theorem inv_valid {L : Layout} {q : Nat} (h : q % PGSIZE = 0 ∧ L.kend ≤ q ∧ q < L.PHYSTOP) :
    ¬ kfreePanics L q := by
  unfold kfreePanics
  omega

theorem inv_kinit (L : Layout) (hL : L.WF) (s : KState) (h0 : s.freelist = 0)
    (ht : ∀ i, i < PRCSIZE L → s.table i = 0) :
    ∃ s1, kinit L s = .ok s1 ∧ FreeListInv L s1 := by
  obtain ⟨s1, g1, g2, g3, _⟩ := kinit_spec L hL s h0 ht
  refine ⟨s1, g1, _, g2, isList_nodup g2, fun q hq => ?_⟩
  have hv := pagesDesc_valid L hL q hq
  have hk : L.KERNBASE ≤ q := by
    have := not_panics_ge hv
    have := hL.1
    omega
  exact ⟨not_panics_aligned hv, not_panics_ge hv, not_panics_lt hv,
    g3 _ (PRCIDX_lt L hL q hk (not_panics_lt hv))⟩

theorem inv_kalloc (L : Layout) (hL : L.WF) (s : KState) (h : FreeListInv L s) :
    FreeListInv L (kalloc L s).2 := by
  obtain ⟨l, hl, hnd, hq⟩ := h
  cases l with
  | nil =>
    rw [kalloc_empty L s hl]
    exact ⟨[], hl, hnd, hq⟩
  | cons p l =>
    obtain ⟨k1, k2, k3⟩ := kalloc_cons L s p l hl (fun q hm => (hq q hm).1)
    have hn : p ∉ l := (List.nodup_cons.mp hnd).1
    have hpv := inv_valid ⟨(hq p (List.mem_cons_self _ _)).1, (hq p (List.mem_cons_self _ _)).2.1,
      (hq p (List.mem_cons_self _ _)).2.2.1⟩
    refine ⟨l, k2, (List.nodup_cons.mp hnd).2, fun q hm => ?_⟩
    obtain ⟨a1, a2, a3, a4⟩ := hq q (List.mem_cons_of_mem _ hm)
    refine ⟨a1, a2, a3, ?_⟩
    have hne : PRCIDX L q ≠ PRCIDX L p := fun e =>
      hn ((PRCIDX_inj L hL q p (inv_valid ⟨a1, a2, a3⟩) hpv e) ▸ hm)
    show (kalloc L s).2.table (PRCIDX L q) = 0
    rw [k3, Function.update_noteq hne]
    exact a4

theorem inv_kfree (L : Layout) (hL : L.WF) (s : KState) (h : FreeListInv L s) (p : Nat)
    (hv : ¬ kfreePanics L p) (hc : 1 ≤ (prccnt L s p).1) :
    ∃ s1, kfree L s p = .ok s1 ∧ FreeListInv L s1 := by
  obtain ⟨l, hl, hnd, hq⟩ := h
  obtain ⟨w1, w2, w3, w4⟩ := id hL
  have hc0 : 1 ≤ s.table (PRCIDX L p) := hc
  have hne : ∀ q ∈ l, PRCIDX L q ≠ PRCIDX L p := by
    intro q hm e
    have : s.table (PRCIDX L q) = 0 := (hq q hm).2.2.2
    rw [e] at this
    omega
  by_cases hs : 1 < s.table (PRCIDX L p)
  · refine ⟨_, kfree_shared L s p hv hs, l, hl, hnd, fun q hm => ?_⟩
    obtain ⟨a1, a2, a3, a4⟩ := hq q hm
    refine ⟨a1, a2, a3, ?_⟩
    show Function.update s.table (PRCIDX L p) _ (PRCIDX L q) = 0
    rw [Function.update_noteq (hne q hm)]
    exact a4
  · have hnl : p ∉ l := fun hm => hne p hm rfl
    have hp0 : p ≠ 0 := by
      have := not_panics_ge hv
      omega
    have hf : s.freelist < 2 ^ 64 :=
      isList_lt (by norm_num) hl (fun q hm => by
        have := (hq q hm).2.2.1
        omega)
    obtain ⟨s1, g1, g2, g3⟩ := kfree_cons L s p l hv (by omega) hp0 hf hl
      (fun q hm => (hq q hm).1) hnl
    refine ⟨s1, g1, p :: l, g2, List.nodup_cons.mpr ⟨hnl, hnd⟩, fun q hm => ?_⟩
    rcases List.mem_cons.mp hm with e | hm1
    · subst e
      refine ⟨not_panics_aligned hv, not_panics_ge hv, not_panics_lt hv, ?_⟩
      show s1.table (PRCIDX L q) = 0
      rw [g3, Function.update_same]
    · obtain ⟨a1, a2, a3, a4⟩ := hq q hm1
      refine ⟨a1, a2, a3, ?_⟩
      show s1.table (PRCIDX L q) = 0
      rw [g3, Function.update_noteq (hne q hm1)]
      exact a4

theorem inv_prcinc (L : Layout) (s : KState) (h : FreeListInv L s) (p : Nat)
    (hc : 1 ≤ (prccnt L s p).1) : FreeListInv L (prcinc L s p) := by
  obtain ⟨l, hl, hnd, hq⟩ := h
  refine ⟨l, hl, hnd, fun q hm => ?_⟩
  obtain ⟨a1, a2, a3, a4⟩ := hq q hm
  refine ⟨a1, a2, a3, ?_⟩
  have hne : PRCIDX L q ≠ PRCIDX L p := by
    intro e
    have h1 : s.table (PRCIDX L q) = 0 := a4
    have h2 : 1 ≤ s.table (PRCIDX L p) := hc
    rw [e] at h1
    omega
  show Function.update s.table (PRCIDX L p) _ (PRCIDX L q) = 0
  rw [Function.update_noteq hne]
  exact a4

theorem inv_runCalls (L : Layout) (hL : L.WF) : ∀ (cs : List Call) (s : KState),
    FreeListInv L s → Permitted L s cs → ∃ s2, runCalls L s cs = .ok s2 ∧ FreeListInv L s2
  | [], s, h, _ => ⟨s, rfl, h⟩
  | Call.alloc :: cs, s, h, hp => by
    rw [runCalls]
    exact inv_runCalls L hL cs _ (inv_kalloc L hL s h) hp
  | Call.free pa :: cs, s, h, hp => by
    obtain ⟨a1, a2, a3⟩ := hp
    obtain ⟨s1, g1, g2⟩ := inv_kfree L hL s h pa a1 a2
    rw [g1] at a3
    rw [runCalls, g1]
    exact inv_runCalls L hL cs s1 g2 a3
  | Call.inc pa :: cs, s, h, hp => by
    obtain ⟨a1, _, a3⟩ := hp
    rw [runCalls]
    exact inv_runCalls L hL cs _ (inv_prcinc L s h pa a1) a3

/-- C17: the free-list invariant (no duplicate entries; every page on the list is
page-aligned, lies in `[end, PHYSTOP)` and has count 0) holds after `kinit`, is preserved by
`kalloc`, by `kfree(p)` when `p` passes the validation and has count at least 1, and by
`prcinc(p)` when the count of `p` is between 1 and 254; hence it holds in every state reached
from `kinit` by a sequence of such calls, none of which panics. -/
theorem free_list_invariant (L : Layout) (hL : L.WF) :
    (∀ s, s.freelist = 0 → (∀ i, i < PRCSIZE L → s.table i = 0) →
        ∃ s1, kinit L s = .ok s1 ∧ FreeListInv L s1) ∧
      (∀ s, FreeListInv L s → FreeListInv L (kalloc L s).2) ∧
      (∀ s p, FreeListInv L s → ¬ kfreePanics L p → 1 ≤ (prccnt L s p).1 →
        ∃ s1, kfree L s p = .ok s1 ∧ FreeListInv L s1) ∧
      (∀ s p, FreeListInv L s → 1 ≤ (prccnt L s p).1 → (prccnt L s p).1 ≤ 254 →
        FreeListInv L (prcinc L s p)) ∧
      (∀ s, s.freelist = 0 → (∀ i, i < PRCSIZE L → s.table i = 0) →
        ∃ s1, kinit L s = .ok s1 ∧
          ∀ cs, Permitted L s1 cs → ∃ s2, runCalls L s1 cs = .ok s2 ∧ FreeListInv L s2) := by
  refine ⟨inv_kinit L hL, inv_kalloc L hL, fun s p h hv hc => inv_kfree L hL s h p hv hc,
    fun s p h h1 _ => inv_prcinc L s h p h1, fun s h0 ht => ?_⟩
  obtain ⟨s1, g1, g2⟩ := inv_kinit L hL s h0 ht
  exact ⟨s1, g1, fun cs hp => inv_runCalls L hL cs s1 g2 hp⟩

theorem free_list_invariant_witness :
    (∀ s, s.freelist = 0 → (∀ i, i < PRCSIZE xv6 → s.table i = 0) →
        ∃ s1, kinit xv6 s = .ok s1 ∧ FreeListInv xv6 s1) ∧
      (∀ s, FreeListInv xv6 s → FreeListInv xv6 (kalloc xv6 s).2) ∧
      (∀ s p, FreeListInv xv6 s → ¬ kfreePanics xv6 p → 1 ≤ (prccnt xv6 s p).1 →
        ∃ s1, kfree xv6 s p = .ok s1 ∧ FreeListInv xv6 s1) ∧
      (∀ s p, FreeListInv xv6 s → 1 ≤ (prccnt xv6 s p).1 → (prccnt xv6 s p).1 ≤ 254 →
        FreeListInv xv6 (prcinc xv6 s p)) ∧
      (∀ s, s.freelist = 0 → (∀ i, i < PRCSIZE xv6 → s.table i = 0) →
        ∃ s1, kinit xv6 s = .ok s1 ∧
          ∀ cs, Permitted xv6 s1 cs →
            ∃ s2, runCalls xv6 s1 cs = .ok s2 ∧ FreeListInv xv6 s2) :=
  free_list_invariant xv6 (by decide)

/-! ## Lock discipline -/

theorem kfreeT_fst (L : Layout) (s : KState) (pa : Nat) : (kfreeT L s pa).1 = kfree L s pa := by
  unfold kfreeT kfree
  split
  · rfl
  · split <;> rfl

theorem kfreeT_snd (L : Layout) (s : KState) (pa : Nat) :
    (kfreeT L s pa).2 =
      if kfreePanics L pa then []
      else [LockEv.acquire Lock.prc, LockEv.release Lock.prc] ++
        (if s.table (PRCIDX L pa) ≤ 1 then [LockEv.acquire Lock.kmem, LockEv.release Lock.kmem]
         else []) := by
  unfold kfreeT
  by_cases h : kfreePanics L pa
  · rw [if_pos h, if_pos h]
  · rw [if_neg h, if_neg h]
    by_cases c : s.table (PRCIDX L pa) > 1
    · rw [if_pos c, if_neg (by omega)]
      rfl
    · rw [if_neg c, if_pos (by omega)]
      rfl

theorem kfreeT_disciplined (L : Layout) (s : KState) (pa : Nat) :
    Disciplined (kfreeT L s pa).2 := by
  rw [kfreeT_snd]
  split
  · rfl
  · split <;> decide

theorem kallocT_fst (L : Layout) (s : KState) : (kallocT L s).1 = kalloc L s := by
  unfold kallocT kalloc
  dsimp only
  split <;> rfl

theorem kallocT_snd (L : Layout) (s : KState) :
    (kallocT L s).2 =
      [LockEv.acquire Lock.kmem, LockEv.release Lock.kmem] ++
        (if s.freelist ≠ 0 then [LockEv.acquire Lock.prc, LockEv.release Lock.prc] else []) := by
  unfold kallocT
  dsimp only
  split <;> rfl

theorem lockRun_append : ∀ (a b : List LockEv) (h : Option Lock),
    lockRun h (a ++ b) = (lockRun h a).bind (fun k => lockRun k b)
  | [], b, h => by simp [lockRun]
  | .acquire l :: a, b, none => by
    simp only [List.cons_append, lockRun]
    exact lockRun_append a b _
  | .acquire l :: a, b, some k => by simp [lockRun]
  | .release l :: a, b, none => by simp [lockRun]
  | .release l :: a, b, some k => by
    simp only [List.cons_append, lockRun]
    split
    · exact lockRun_append a b _
    · rfl

theorem disciplined_append {a b : List LockEv} (ha : Disciplined a) (hb : Disciplined b) :
    Disciplined (a ++ b) := by
  unfold Disciplined at *
  rw [lockRun_append, ha]
  exact hb

theorem freerangeLoopT_fst (L : Layout) : ∀ (n : Nat) (s : KState) (p pa_end : Nat),
    (freerangeLoopT L n s p pa_end).1 = freerangeLoop L n s p pa_end
  | 0, s, p, pa_end => by
    unfold freerangeLoopT freerangeLoop
    split <;> rfl
  | n + 1, s, p, pa_end => by
    unfold freerangeLoopT freerangeLoop
    split
    · have e := kfreeT_fst L s p
      rcases hk : kfreeT L s p with ⟨r, es⟩
      rw [hk] at e
      cases r with
      | error x =>
        rw [← e]
      | ok s1 =>
        rw [← e]
        exact freerangeLoopT_fst L n s1 _ _
    · rfl

theorem freerangeLoopT_disciplined (L : Layout) : ∀ (n : Nat) (s : KState) (p pa_end : Nat),
    Disciplined (freerangeLoopT L n s p pa_end).2
  | 0, s, p, pa_end => by
    unfold freerangeLoopT
    split <;> rfl
  | n + 1, s, p, pa_end => by
    unfold freerangeLoopT
    split
    · have d := kfreeT_disciplined L s p
      rcases hk : kfreeT L s p with ⟨r, es⟩
      rw [hk] at d
      cases r with
      | error x => exact d
      | ok s1 => exact disciplined_append d (freerangeLoopT_disciplined L n s1 _ _)
    · rfl

theorem kinitT_fst (L : Layout) (s : KState) : (kinitT L s).1 = kinit L s := by
  unfold kinitT kinit freerangeT freerange
  have e := freerangeLoopT_fst L (L.PHYSTOP / PGSIZE) s (PGROUNDUP L.kend) L.PHYSTOP
  rcases hk : freerangeLoopT L (L.PHYSTOP / PGSIZE) s (PGROUNDUP L.kend) L.PHYSTOP with ⟨r, es⟩
  rw [hk] at e
  cases r with
  | error x => rw [← e]
  | ok s1 =>
    rw [← e]
    dsimp only
    cases prcClearLoop L (2 ^ 16) 0 s1.table <;> rfl

theorem kinitT_disciplined (L : Layout) (hs : PRCSIZE L < 2 ^ 16) (s : KState) :
    Disciplined (kinitT L s).2 := by
  unfold kinitT freerangeT
  have d := freerangeLoopT_disciplined L (L.PHYSTOP / PGSIZE) s (PGROUNDUP L.kend) L.PHYSTOP
  rcases hk : freerangeLoopT L (L.PHYSTOP / PGSIZE) s (PGROUNDUP L.kend) L.PHYSTOP with ⟨r, es⟩
  rw [hk] at d
  cases r with
  | error x => exact d
  | ok s1 =>
    obtain ⟨t1, k1, _⟩ := prcClearLoop_spec L hs (2 ^ 16) 0 s1.table (Nat.zero_le _) (by omega)
    dsimp only
    rw [k1]
    exact disciplined_append d (by decide)

/-- C16: in the sequence of `acquire` and `release` calls of each of `kalloc`, `kfree`,
`prcinc`, `prccnt` and `kinit` (the functions with these calls recorded compute the same
results as the ones without), every `acquire` is followed by the `release` of the same lock
before any other `acquire`, so `kmem.lock` and `prc.lock` are never held together; `kalloc`
releases `kmem.lock` before it acquires `prc.lock` (which it does only for a non-null page),
and `kfree` releases `prc.lock` before it acquires `kmem.lock`, which it acquires only when
the count was at most 1, that is when it reaches zero. -/
theorem lock_discipline (L : Layout) (hs : PRCSIZE L < 2 ^ 16) (s : KState) (pa : Nat) :
    ((kallocT L s).1 = kalloc L s ∧ (kfreeT L s pa).1 = kfree L s pa ∧
        (prcincT L s pa).1 = prcinc L s pa ∧ (prccntT L s pa).1 = prccnt L s pa ∧
        (kinitT L s).1 = kinit L s) ∧
      (Disciplined (kallocT L s).2 ∧ Disciplined (kfreeT L s pa).2 ∧
        Disciplined (prcincT L s pa).2 ∧ Disciplined (prccntT L s pa).2 ∧
        Disciplined (kinitT L s).2) ∧
      (kallocT L s).2 =
        [LockEv.acquire Lock.kmem, LockEv.release Lock.kmem] ++
          (if s.freelist ≠ 0 then [LockEv.acquire Lock.prc, LockEv.release Lock.prc] else []) ∧
      (kfreeT L s pa).2 =
        (if kfreePanics L pa then []
         else [LockEv.acquire Lock.prc, LockEv.release Lock.prc] ++
          (if s.table (PRCIDX L pa) ≤ 1 then
            [LockEv.acquire Lock.kmem, LockEv.release Lock.kmem] else [])) ∧
      (LockEv.acquire Lock.kmem ∈ (kfreeT L s pa).2 ↔
        ¬ kfreePanics L pa ∧ (prccnt L s pa).1 ≤ 1) := by
  refine ⟨⟨kallocT_fst L s, kfreeT_fst L s pa, rfl, rfl, kinitT_fst L s⟩,
    ⟨?_, kfreeT_disciplined L s pa, rfl, rfl, kinitT_disciplined L hs s⟩,
    kallocT_snd L s, kfreeT_snd L s pa, ?_⟩
  · rw [kallocT_snd]
    split <;> decide
  · rw [kfreeT_snd]
    show _ ↔ ¬ kfreePanics L pa ∧ s.table (PRCIDX L pa) ≤ 1
    by_cases h : kfreePanics L pa
    · simp [h]
    · by_cases c : s.table (PRCIDX L pa) ≤ 1
      · simp [h, c]
      · simp [h, c]

theorem lock_discipline_witness :
    ((kallocT xv6 oneFree).1 = kalloc xv6 oneFree ∧
        (kfreeT xv6 oneFree 0x87fff000).1 = kfree xv6 oneFree 0x87fff000 ∧
        (prcincT xv6 oneFree 0x87fff000).1 = prcinc xv6 oneFree 0x87fff000 ∧
        (prccntT xv6 oneFree 0x87fff000).1 = prccnt xv6 oneFree 0x87fff000 ∧
        (kinitT xv6 oneFree).1 = kinit xv6 oneFree) ∧
      (Disciplined (kallocT xv6 oneFree).2 ∧ Disciplined (kfreeT xv6 oneFree 0x87fff000).2 ∧
        Disciplined (prcincT xv6 oneFree 0x87fff000).2 ∧
        Disciplined (prccntT xv6 oneFree 0x87fff000).2 ∧
        Disciplined (kinitT xv6 oneFree).2) ∧
      (kallocT xv6 oneFree).2 =
        [LockEv.acquire Lock.kmem, LockEv.release Lock.kmem] ++
          (if oneFree.freelist ≠ 0 then [LockEv.acquire Lock.prc, LockEv.release Lock.prc]
           else []) ∧
      (kfreeT xv6 oneFree 0x87fff000).2 =
        (if kfreePanics xv6 0x87fff000 then []
         else [LockEv.acquire Lock.prc, LockEv.release Lock.prc] ++
          (if oneFree.table (PRCIDX xv6 0x87fff000) ≤ 1 then
            [LockEv.acquire Lock.kmem, LockEv.release Lock.kmem] else [])) ∧
      (LockEv.acquire Lock.kmem ∈ (kfreeT xv6 oneFree 0x87fff000).2 ↔
        ¬ kfreePanics xv6 0x87fff000 ∧ (prccnt xv6 oneFree 0x87fff000).1 ≤ 1) :=
  lock_discipline xv6 (by decide) oneFree 0x87fff000

/-! ## `kinit` against the initializer of the spec -/

theorem mem_pagesAsc {q : Nat} : ∀ {k start : Nat},
    q ∈ pagesAsc start k ↔ ∃ i, i < k ∧ q = start + i * PGSIZE
  | 0, _ => by simp [pagesAsc]
  | k + 1, start => by
    rw [pagesAsc, List.mem_cons, mem_pagesAsc]
    constructor
    · rintro (h | ⟨i, hi, h⟩)
      · exact ⟨0, by omega, by omega⟩
      · exact ⟨i + 1, by omega, by rw [h]; ring⟩
    · rintro ⟨i, hi, h⟩
      cases i with
      | zero => exact Or.inl (by omega)
      | succ i => exact Or.inr ⟨i, by omega, by rw [h]; ring⟩

/-- The loop of `freerange` calls `kfree` on the pages from `p` upwards, in ascending order. -/
theorem freerangeLoop_eq_kfreeAll (L : Layout) (pa_end : Nat) : ∀ (m n : Nat) (s : KState)
    (p : Nat), m ≤ n → (∀ k, k < m → p + k * PGSIZE + PGSIZE ≤ pa_end) →
    ¬ (p + m * PGSIZE + PGSIZE ≤ pa_end) →
    freerangeLoop L n s p pa_end = kfreeAll L s (pagesAsc p m)
  | 0, n, s, p, _, _, hstop => by
    have hs : ¬ (p + PGSIZE ≤ pa_end) := by omega
    cases n with
    | zero => rw [freerangeLoop, if_neg hs, pagesAsc, kfreeAll]
    | succ n => rw [freerangeLoop, if_neg hs, pagesAsc, kfreeAll]
  | m + 1, 0, _, _, hn, _, _ => by omega
  | m + 1, n + 1, s, p, hn, hgo, hstop => by
    have h0 : p + PGSIZE ≤ pa_end := by
      have := hgo 0 (by omega)
      omega
    rw [freerangeLoop, if_pos h0, pagesAsc, kfreeAll]
    cases kfree L s p with
    | error e => rfl
    | ok s1 =>
      refine freerangeLoop_eq_kfreeAll L pa_end m n s1 (p + PGSIZE) (by omega) (fun k hk => ?_) ?_
      · have := hgo (k + 1) (by omega)
        have e : p + (k + 1) * PGSIZE = p + PGSIZE + k * PGSIZE := by ring
        omega
      · have e : p + (m + 1) * PGSIZE = p + PGSIZE + m * PGSIZE := by ring
        omega

theorem freerange_eq_kfreeAll (L : Layout) (hL : L.WF) (s : KState) :
    freerange L s L.kend L.PHYSTOP
      = kfreeAll L s (pagesAsc (PGROUNDUP L.kend) (npages L)) := by
  obtain ⟨w1, w2, w3, w4⟩ := hL
  obtain ⟨r1, r2, r3⟩ := PGROUNDUP_spec L.kend (by unfold PGSIZE at *; omega)
  unfold freerange
  refine freerangeLoop_eq_kfreeAll L L.PHYSTOP (npages L) _ s _ ?_ (fun k hk => ?_) ?_
  · unfold npages
    exact Nat.div_le_div_right (Nat.sub_le _ _)
  · unfold npages PGSIZE at *
    omega
  · unfold npages PGSIZE at *
    omega

theorem kfree_eq_pushState (L : Layout) (s : KState) (p : Nat) (hv : ¬ kfreePanics L p)
    (hc : s.table (PRCIDX L p) ≤ 1) : kfree L s p = .ok (pushState L s p) :=
  kfree_last L s p hv hc

theorem kfreeAll_eq_foldl (L : Layout) : ∀ (pages : List Nat) (s : KState),
    (∀ p ∈ pages, ¬ kfreePanics L p ∧ s.table (PRCIDX L p) ≤ 1) →
    kfreeAll L s pages = .ok (pages.foldl (pushState L) s)
  | [], _, _ => rfl
  | p :: ps, s, h => by
    obtain ⟨hv, hc⟩ := h p (List.mem_cons_self _ _)
    rw [kfreeAll, kfree_eq_pushState L s p hv hc, List.foldl_cons]
    refine kfreeAll_eq_foldl L ps (pushState L s p) (fun q hq => ?_)
    obtain ⟨hvq, hcq⟩ := h q (List.mem_cons_of_mem _ hq)
    refine ⟨hvq, ?_⟩
    show Function.update s.table (PRCIDX L p) 0 (PRCIDX L q) ≤ 1
    by_cases e : PRCIDX L q = PRCIDX L p
    · rw [e, Function.update_same]
      omega
    · rw [Function.update_noteq e]
      exact hcq

theorem foldl_pushState_mem (L : Layout) : ∀ (pages : List Nat) (s t : KState),
    s.mem = t.mem → s.freelist = t.freelist →
    (pages.foldl (pushState L) s).mem = (pages.foldl (pushState L) t).mem ∧
      (pages.foldl (pushState L) s).freelist = (pages.foldl (pushState L) t).freelist
  | [], _, _, h1, h2 => ⟨h1, h2⟩
  | p :: ps, s, t, h1, h2 => by
    rw [List.foldl_cons, List.foldl_cons]
    refine foldl_pushState_mem L ps _ _ ?_ rfl
    show writeU64 (memset s.mem p 1 PGSIZE) p s.freelist
      = writeU64 (memset t.mem p 1 PGSIZE) p t.freelist
    rw [h1, h2]

theorem foldl_pushState_table (L : Layout) : ∀ (pages : List Nat) (s : KState) (i : Nat),
    (pages.foldl (pushState L) s).table i
      = if ∃ p ∈ pages, PRCIDX L p = i then 0 else s.table i
  | [], s, i => by simp
  | p :: ps, s, i => by
    rw [List.foldl_cons, foldl_pushState_table L ps (pushState L s p) i]
    by_cases h1 : ∃ q ∈ ps, PRCIDX L q = i
    · obtain ⟨q, hq, e⟩ := h1
      rw [if_pos ⟨q, hq, e⟩, if_pos ⟨q, List.mem_cons_of_mem _ hq, e⟩]
    · rw [if_neg h1]
      show Function.update s.table (PRCIDX L p) 0 i = _
      by_cases e : i = PRCIDX L p
      · rw [e, Function.update_same, if_pos ⟨p, List.mem_cons_self _ _, rfl⟩]
      · rw [Function.update_noteq e, if_neg]
        rintro ⟨q, hq, e2⟩
        rcases List.mem_cons.mp hq with e3 | hq1
        · exact e (by rw [← e2, e3])
        · exact h1 ⟨q, hq1, e2⟩

theorem pushState_cons (L : Layout) (s : KState) (p : Nat) (l : List Nat) (hp0 : p ≠ 0)
    (hp : p % PGSIZE = 0) (hf : s.freelist < 2 ^ 64) (hl : FreeList s l)
    (ha : ∀ q ∈ l, q % PGSIZE = 0) (hn : p ∉ l) : FreeList (pushState L s p) (p :: l) := by
  refine ⟨rfl, hp0, ?_⟩
  show isList _ (readU64 (writeU64 (memset s.mem p 1 PGSIZE) p s.freelist) p) l
  rw [readU64_writeU64_same _ _ _ hf]
  exact isList_writeU64 p _ (isList_memset p 1 hl ha hp hn) ha hp hn

/-- Pushing the pages `base + j * PGSIZE, ...` in ascending order on the free list of the `j`
pages below them gives the descending list of all of them. -/
theorem foldl_pushState_list (L : Layout) (base : Nat) (hb : base % PGSIZE = 0)
    (hb0 : 0 < base) : ∀ (m j : Nat) (s : KState), base + (j + m) * PGSIZE ≤ 2 ^ 64 →
    FreeList s (pagesDesc base j) →
    FreeList ((pagesAsc (base + j * PGSIZE) m).foldl (pushState L) s) (pagesDesc base (j + m))
  | 0, _, _, _, hl => hl
  | m + 1, j, s, hB, hl => by
    have hal : ∀ q ∈ pagesDesc base j, q % PGSIZE = 0 := by
      intro q hq
      obtain ⟨i, _, e⟩ := mem_pagesDesc.mp hq
      unfold PGSIZE at *
      omega
    have hnm : base + j * PGSIZE ∉ pagesDesc base j := by
      intro hq
      obtain ⟨i, hi, e⟩ := mem_pagesDesc.mp hq
      unfold PGSIZE at *
      omega
    have hf : s.freelist < 2 ^ 64 := by
      refine isList_lt (by norm_num) hl (fun q hq => ?_)
      obtain ⟨i, hi, e⟩ := mem_pagesDesc.mp hq
      unfold PGSIZE at *
      omega
    have h1 := pushState_cons L s (base + j * PGSIZE) _ (by omega)
      (by unfold PGSIZE at *; omega) hf hl hal hnm
    have e1 : base + j * PGSIZE + PGSIZE = base + (j + 1) * PGSIZE := by ring
    have e2 : j + (m + 1) = j + 1 + m := by ring
    rw [pagesAsc, List.foldl_cons, e1, e2]
    exact foldl_pushState_list L base hb hb0 m (j + 1) _ (by rw [← e2]; exact hB) h1

theorem KState_eq {s t : KState} (h1 : s.mem = t.mem) (h2 : s.freelist = t.freelist)
    (h3 : s.table = t.table) : s = t := by
  cases s
  cases t
  simp only at h1 h2 h3
  rw [h1, h2, h3]

theorem pagesAsc_valid (L : Layout) (hL : L.WF) (p : Nat)
    (hp : p ∈ pagesAsc (PGROUNDUP L.kend) (npages L)) :
    ¬ kfreePanics L p ∧ PRCIDX L p < PRCSIZE L := by
  have hd : p ∈ pagesDesc (PGROUNDUP L.kend) (npages L) :=
    mem_pagesDesc.mpr (mem_pagesAsc.mp hp)
  have hv := pagesDesc_valid L hL p hd
  have hk : L.KERNBASE ≤ p := by
    have := not_panics_ge hv
    have := hL.1
    omega
  exact ⟨hv, PRCIDX_lt L hL p hk (not_panics_lt hv)⟩

/-- When every `kfree` of `freerange` pushes its page, `kinit` returns the state in which all
pages have been pushed in ascending order and the table entries below `PRCSIZE` are 0. -/
theorem kinit_of_pushes (L : Layout) (hL : L.WF) (s : KState)
    (ht : ∀ p ∈ pagesAsc (PGROUNDUP L.kend) (npages L), s.table (PRCIDX L p) ≤ 1) :
    kinit L s = .ok
      { mem := ((pagesAsc (PGROUNDUP L.kend) (npages L)).foldl (pushState L) s).mem
        freelist := ((pagesAsc (PGROUNDUP L.kend) (npages L)).foldl (pushState L) s).freelist
        table := fun i => if i < PRCSIZE L then 0 else s.table i } := by
  have hsz := PRCSIZE_eq L hL
  have hfr := freerange_eq_kfreeAll L hL s
  rw [kfreeAll_eq_foldl L _ s (fun p hp => ⟨(pagesAsc_valid L hL p hp).1, ht p hp⟩)] at hfr
  obtain ⟨t1, k1, k2⟩ := prcClearLoop_spec L (by omega) (2 ^ 16) 0
    ((pagesAsc (PGROUNDUP L.kend) (npages L)).foldl (pushState L) s).table (Nat.zero_le _)
    (by omega)
  simp only [kinit, hfr, k1]
  congr 1
  refine KState_eq rfl rfl (funext fun i => ?_)
  show t1 i = (if i < PRCSIZE L then 0 else s.table i)
  rw [k2 i, foldl_pushState_table]
  by_cases hi : i < PRCSIZE L
  · rw [if_pos ⟨Nat.zero_le _, hi⟩, if_pos hi]
  · rw [if_neg (fun h => hi h.2), if_neg hi, if_neg]
    rintro ⟨p, hp, e⟩
    have := (pagesAsc_valid L hL p hp).2
    omega

/-- The initializer of the spec returns the same state, whatever the table held before. -/
theorem kinitSpec_eq (L : Layout) (hL : L.WF) (s : KState) :
    kinitSpec L s = .ok
      { mem := ((pagesAsc (PGROUNDUP L.kend) (npages L)).foldl (pushState L) s).mem
        freelist := ((pagesAsc (PGROUNDUP L.kend) (npages L)).foldl (pushState L) s).freelist
        table := fun i => if i < PRCSIZE L then 0 else s.table i } := by
  unfold kinitSpec
  rw [kfreeAll_eq_foldl L _ (clearTable L s) (fun p hp => by
    obtain ⟨hv, hi⟩ := pagesAsc_valid L hL p hp
    refine ⟨hv, ?_⟩
    show (if PRCIDX L p < PRCSIZE L then 0 else s.table (PRCIDX L p)) ≤ 1
    rw [if_pos hi]
    omega)]
  congr 1
  obtain ⟨m1, m2⟩ := foldl_pushState_mem L (pagesAsc (PGROUNDUP L.kend) (npages L))
    (clearTable L s) s rfl rfl
  refine KState_eq m1 m2 (funext fun i => ?_)
  rw [foldl_pushState_table]
  show (if _ then 0 else if i < PRCSIZE L then 0 else s.table i)
    = (if i < PRCSIZE L then 0 else s.table i)
  by_cases hi : i < PRCSIZE L
  · simp only [if_pos hi, ite_self]
  · rw [if_neg hi, if_neg]
    rintro ⟨p, hp, e⟩
    have := (pagesAsc_valid L hL p hp).2
    omega

theorem foldl_pushState_all (L : Layout) (hL : L.WF) (s : KState) (h0 : s.freelist = 0) :
    FreeList ((pagesAsc (PGROUNDUP L.kend) (npages L)).foldl (pushState L) s)
      (pagesDesc (PGROUNDUP L.kend) (npages L)) := by
  obtain ⟨w1, w2, w3, w4⟩ := hL
  obtain ⟨r1, r2, r3⟩ := PGROUNDUP_spec L.kend (by unfold PGSIZE at *; omega)
  have h := foldl_pushState_list L (PGROUNDUP L.kend) r1 (by omega) (npages L) 0 s
    (by unfold npages PGSIZE at *; omega) h0
  rw [Nat.zero_mul, Nat.add_zero, Nat.zero_add] at h
  exact h

/-- When the table entry of the first page of the range is above one before `kinit` and the
entries of the other pages are at most one, `kinit` leaves the first page off the free
list. -/
theorem kinit_skips_first (L : Layout) (hL : L.WF) (s : KState) (h0 : s.freelist = 0)
    (n : Nat) (hN : npages L = n + 1) (hc : 1 < s.table (PRCIDX L (PGROUNDUP L.kend)))
    (ho : ∀ k, 0 < k → k < npages L → s.table (PRCIDX L (PGROUNDUP L.kend + k * PGSIZE)) ≤ 1) :
    ∃ s1, kinit L s = .ok s1 ∧ FreeList s1 (pagesDesc (PGROUNDUP L.kend + PGSIZE) n) ∧
      PGROUNDUP L.kend ∉ pagesDesc (PGROUNDUP L.kend + PGSIZE) n := by
  obtain ⟨w1, w2, w3, w4⟩ := id hL
  obtain ⟨r1, r2, r3⟩ := PGROUNDUP_spec L.kend (by unfold PGSIZE at *; omega)
  have hsz := PRCSIZE_eq L hL
  have hmem0 : PGROUNDUP L.kend ∈ pagesAsc (PGROUNDUP L.kend) (npages L) :=
    mem_pagesAsc.mpr ⟨0, by omega, by omega⟩
  have hv0 := (pagesAsc_valid L hL _ hmem0).1
  obtain ⟨s2, hk, hf2, ht2⟩ : ∃ s2, kfree L s (PGROUNDUP L.kend) = .ok s2 ∧
      s2.freelist = s.freelist ∧
      s2.table = Function.update s.table (PRCIDX L (PGROUNDUP L.kend))
        ((s.table (PRCIDX L (PGROUNDUP L.kend)) - 1) % 256) :=
    ⟨_, kfree_shared L s _ hv0 hc, rfl, rfl⟩
  have hrest : ∀ p ∈ pagesAsc (PGROUNDUP L.kend + PGSIZE) n,
      ¬ kfreePanics L p ∧ s2.table (PRCIDX L p) ≤ 1 := by
    intro p hp
    obtain ⟨k, hk, e⟩ := mem_pagesAsc.mp hp
    have e2 : p = PGROUNDUP L.kend + (k + 1) * PGSIZE := by rw [e]; ring
    have hm : p ∈ pagesAsc (PGROUNDUP L.kend) (npages L) :=
      mem_pagesAsc.mpr ⟨k + 1, by omega, e2⟩
    have hv := (pagesAsc_valid L hL p hm).1
    refine ⟨hv, ?_⟩
    have hne : PRCIDX L p ≠ PRCIDX L (PGROUNDUP L.kend) := by
      intro h
      have := PRCIDX_inj L hL p _ hv hv0 h
      unfold PGSIZE at *
      omega
    rw [ht2, Function.update_noteq hne, e2]
    exact ho (k + 1) (by omega) (by omega)
  have hfr := freerange_eq_kfreeAll L hL s
  rw [hN, pagesAsc, kfreeAll, hk] at hfr
  dsimp only at hfr
  rw [kfreeAll_eq_foldl L _ _ hrest] at hfr
  obtain ⟨t1, k1, _⟩ := prcClearLoop_spec L (by omega) (2 ^ 16) 0
    ((pagesAsc (PGROUNDUP L.kend + PGSIZE) n).foldl (pushState L) s2).table (Nat.zero_le _)
    (by omega)
  have hlist := foldl_pushState_list L (PGROUNDUP L.kend + PGSIZE)
    (by unfold PGSIZE at *; omega) (by omega) n 0 s2
    (by unfold npages PGSIZE at *; omega) (show s2.freelist = 0 by rw [hf2, h0])
  rw [Nat.zero_mul, Nat.add_zero, Nat.zero_add] at hlist
  generalize (pagesAsc (PGROUNDUP L.kend + PGSIZE) n).foldl (pushState L) s2 = X
    at hfr k1 hlist
  refine ⟨{ X with table := t1 }, by simp only [kinit, hfr, k1], hlist, ?_⟩
  intro hq
  obtain ⟨i, _, e⟩ := mem_pagesDesc.mp hq
  unfold PGSIZE at *
  omega

/-- In the situation of `kinit_skips_first`, `kinit` and the initializer of the spec end in
different states: only the latter has the first page of the range on the free list. -/
theorem kinit_differs_from_spec (L : Layout) (hL : L.WF) (s : KState) (h0 : s.freelist = 0)
    (n : Nat) (hN : npages L = n + 1) (hc : 1 < s.table (PRCIDX L (PGROUNDUP L.kend)))
    (ho : ∀ k, 0 < k → k < npages L → s.table (PRCIDX L (PGROUNDUP L.kend + k * PGSIZE)) ≤ 1) :
    ∃ s1 l, kinit L s = .ok s1 ∧ FreeList s1 l ∧ PGROUNDUP L.kend ∉ l ∧
      ∃ s2 l2, kinitSpec L s = .ok s2 ∧ FreeList s2 l2 ∧ PGROUNDUP L.kend ∈ l2 ∧ s1 ≠ s2 := by
  obtain ⟨s1, g1, g2, g3⟩ := kinit_skips_first L hL s h0 n hN hc ho
  have hl2 := foldl_pushState_all L hL s h0
  have hm2 : PGROUNDUP L.kend ∈ pagesDesc (PGROUNDUP L.kend) (npages L) :=
    mem_pagesDesc.mpr ⟨0, by omega, by omega⟩
  generalize pagesDesc (PGROUNDUP L.kend) (npages L) = l2 at hl2 hm2
  generalize pagesDesc (PGROUNDUP L.kend + PGSIZE) n = l at g2 g3
  have hs := kinitSpec_eq L hL s
  obtain ⟨s2, k1, k2, k3⟩ : ∃ s2, kinitSpec L s = .ok s2 ∧
      s2.mem = ((pagesAsc (PGROUNDUP L.kend) (npages L)).foldl (pushState L) s).mem ∧
      s2.freelist
        = ((pagesAsc (PGROUNDUP L.kend) (npages L)).foldl (pushState L) s).freelist :=
    ⟨_, hs, rfl, rfl⟩
  have hl3 : FreeList s2 l2 := by
    unfold FreeList at hl2 ⊢
    rw [k2, k3]
    exact hl2
  refine ⟨s1, l, g1, g2, g3, s2, l2, k1, hl3, hm2, fun h => ?_⟩
  rw [h] at g2
  exact g3 (isList_unique hl3 g2 ▸ hm2)

/-- C15, as stated, fails: `kinit` calls `kfree` on the pages before it clears the table.
With a null free list and the table entry of the page `0x80022000` (the first page after the
kernel) holding 3, `kinit` only lowers that entry and leaves the page off the free list,
whereas zeroing the table first and then freeing every page puts it on the list; the two
final states differ. -/
theorem kinit_misses_shared_page :
    junk3.freelist = 0 ∧
      (0x80022000 % PGSIZE = 0 ∧ PGROUNDUP xv6.kend ≤ 0x80022000 ∧
        0x80022000 + PGSIZE ≤ xv6.PHYSTOP) ∧
      ∃ s1 l, kinit xv6 junk3 = .ok s1 ∧ FreeList s1 l ∧ 0x80022000 ∉ l ∧
        ∃ s2 l2, kinitSpec xv6 junk3 = .ok s2 ∧ FreeList s2 l2 ∧ 0x80022000 ∈ l2 ∧
          s1 ≠ s2 := by
  have e : PGROUNDUP xv6.kend = 0x80022000 := by decide
  have hN : npages xv6 = 32733 + 1 := by decide
  obtain ⟨s1, l, g1, g2, g3, s2, l2, k1, k2, k3, k4⟩ :=
    kinit_differs_from_spec xv6 (by decide) junk3 rfl 32733 hN (by decide)
      (fun k hk1 hk2 => by
        rw [hN] at hk2
        have hi : PRCIDX xv6 (PGROUNDUP xv6.kend + k * PGSIZE) ≠ 0x22 := by
          rw [e]
          unfold PRCIDX xv6 PGSIZE
          dsimp only
          omega
        show (if PRCIDX xv6 (PGROUNDUP xv6.kend + k * PGSIZE) = 0x22 then 3 else 0) ≤ 1
        rw [if_neg hi]
        omega)
  rw [e] at g3 k3
  exact ⟨rfl, by decide, s1, l, g1, g2, g3, s2, l2, k1, k2, k3, k4⟩

/-- C15, amended: for every prior content of the table in which the counter of every page of
the range is at most 1 (the zeroed table of a fresh boot in particular), and with an empty
free list, `kinit` returns exactly the state obtained by first zeroing the table and then
calling `kfree` on each page-aligned address from `PGROUNDUP(end)` up to `PHYSTOP - PGSIZE` in
ascending order; in that state every page of the range is on the free list. -/
theorem kinit_refines_spec (L : Layout) (hL : L.WF) (s : KState) (h0 : s.freelist = 0)
    (ht : ∀ p, p % PGSIZE = 0 → PGROUNDUP L.kend ≤ p → p + PGSIZE ≤ L.PHYSTOP →
      (prccnt L s p).1 ≤ 1) :
    ∃ s1 l, kinit L s = .ok s1 ∧ kinitSpec L s = .ok s1 ∧ FreeList s1 l ∧
      ∀ p, p ∈ l ↔ (p % PGSIZE = 0 ∧ PGROUNDUP L.kend ≤ p ∧ p + PGSIZE ≤ L.PHYSTOP) := by
  have hp : ∀ p ∈ pagesAsc (PGROUNDUP L.kend) (npages L), s.table (PRCIDX L p) ≤ 1 := by
    intro p hm
    obtain ⟨a1, a2, a3⟩ := (mem_pagesDesc_range L hL p).mp
      (mem_pagesDesc.mpr (mem_pagesAsc.mp hm))
    exact ht p a1 a2 a3
  exact ⟨_, _, kinit_of_pushes L hL s hp, kinitSpec_eq L hL s,
    foldl_pushState_all L hL s h0, mem_pagesDesc_range L hL⟩

theorem kinit_refines_spec_witness :
    ∃ s1 l, kinit xv6 zeroState = .ok s1 ∧ kinitSpec xv6 zeroState = .ok s1 ∧ FreeList s1 l ∧
      ∀ p, p ∈ l ↔ (p % PGSIZE = 0 ∧ PGROUNDUP xv6.kend ≤ p ∧ p + PGSIZE ≤ xv6.PHYSTOP) :=
  kinit_refines_spec xv6 (by decide) zeroState rfl (fun _ _ _ _ => Nat.zero_le 1)

end Kalloc
